import Mathlib

/-!
Verification of the jugs-problem solver (`jugs.py`).

This file shallowly embeds the water-jug state-space search of `jugs.py`.
Python objects are modelled as follows:

* `Jug` is the mutable container class; its mutating methods become pure
  functions returning the updated jug(s).
* The object graph of `JugsState` nodes (each holding `jugs`, `next_states`,
  `parent`, `goal_flag`) is modelled as a flat arena: a `List JugsState` in
  attachment order, where `parent` is an index into the list and node `0` is
  `self.start`.  `next_states` of a node `i` is recovered as the indices whose
  parent is `i`, in ascending (= attachment) order, which is exactly the order
  `add_state` appends them.
* The `GoalFound` exception raised by `graph_it._helper` is caught by the
  `try/except` of the *same* recursive frame, so it never propagates past one
  level of recursion.  It is modelled as a Boolean "aborted" result that the
  enclosing frame consumes and does not re-raise.
* Python's unbounded recursion is modelled with an explicit fuel parameter;
  running out of fuel yields `none`.  Sufficient fuel is proved to exist.
-/

/-- The `Jug` class: a capacity and a current amount (Python integers). -/
structure Jug where
  capacity : Int
  amount : Int
deriving DecidableEq, Repr

/-- `Jug.fill_to_full`: `self.amount = self.capacity`. -/
def Jug.fill_to_full (j : Jug) : Jug :=
  { j with amount := j.capacity }

/-- `Jug.empty`: `self.amount = 0`. -/
def Jug.empty (j : Jug) : Jug :=
  { j with amount := 0 }

/-- `Jug._fill`: adds `amount` to the jug; if this exceeds the capacity the
overflow is removed again and returned as remainder, otherwise the remainder
is `0`.  Returns the updated jug together with the remainder. -/
def Jug._fill (j : Jug) (amount : Int) : Jug × Int :=
  let a := j.amount + amount
  if a > j.capacity then ({ j with amount := j.capacity }, a - j.capacity)
  else ({ j with amount := a }, 0)

/-- `Jug.transfer`: pours `self` into `jug` via `remainder = jug._fill(self.amount);
self.amount = remainder`.  Returns (updated source, updated destination). -/
def Jug.transfer (j jug : Jug) : Jug × Jug :=
  let r := jug._fill j.amount
  ({ j with amount := r.2 }, r.1)

/-- A `JugsState` node of the graph: the jug snapshots, the goal flag, and the
back-reference to the generating state (as an arena index, `none` for the
root).  `next_states` is recovered from the arena (see `children_of`). -/
structure JugsState where
  jugs : List Jug
  goal_flag : Bool
  parent : Option Nat
deriving DecidableEq, Repr

/-- `JugsState.is_same`: walks `self.jugs` positionally and answers `False`
exactly when some position has equal capacities but different amounts.  (Note:
a position whose capacities differ is ignored, faithful to the source.) -/
def is_same (a b : List Jug) : Bool :=
  (a.zip b).all (fun p => !(p.1.capacity == p.2.capacity && p.1.amount != p.2.amount))

/-- `JugsState.has_fill_amount`: does some jug hold exactly `amount`? -/
def has_fill_amount (jugs : List Jug) (amount : Int) : Bool :=
  jugs.any (fun j => j.amount == amount)

/-- The `JugsGraph` object: the arena of attached states (node `0` is
`self.start`), the goal, and the `graphed` flag. -/
structure JugsGraph where
  nodes : List JugsState
  goal : Int
  graphed : Bool
deriving DecidableEq, Repr

/-- `JugsGraph.__init__` composed with `main`'s `Jug(int(x))` construction:
one all-empty jug per capacity, a single unflagged root with no parent. -/
def JugsGraph.mk_graph (capacities : List Int) (goal : Int) : JugsGraph :=
  { nodes := [⟨capacities.map (fun c => ⟨c, 0⟩), false, none⟩]
    goal := goal
    graphed := false }

/-- `JugsGraph.state_exists`: the source checks `state.is_same(self.start)`
and then recursively `state.is_same(s)` for every state reachable from
`self.start`; since every arena node is the root or one of its descendants,
this is an `any` over the arena. -/
def state_exists (nodes : List JugsState) (cand : List Jug) : Bool :=
  nodes.any (fun n => is_same cand n.jugs)

/-- The "fill" candidate of `_helper`: copy the jugs, fill jug `i` to full. -/
def fill_move (js : List Jug) (i : Nat) : List Jug :=
  match js[i]? with
  | some j => js.set i j.fill_to_full
  | none => js

/-- The "empty" candidate of `_helper`: copy the jugs, empty jug `i`. -/
def empty_move (js : List Jug) (i : Nat) : List Jug :=
  match js[i]? with
  | some j => js.set i j.empty
  | none => js

/-- The "transfer" candidate of `_helper`: copy the jugs, pour jug `i` into
jug `k` (callers always have `i ≠ k`). -/
def transfer_move (js : List Jug) (i k : Nat) : List Jug :=
  match js[i]?, js[k]? with
  | some src, some dst =>
    let r := src.transfer dst
    (js.set i r.1).set k r.2
  | _, _ => js

/-- All candidates of one `_helper` frame in source order: for each `i`
ascending, fill `i`, empty `i`, then transfer `i` into each `k ≠ i`, `k`
ascending. -/
def gen_moves (js : List Jug) : List (List Jug) :=
  (List.range js.length).flatMap (fun i =>
    fill_move js i :: empty_move js i ::
      (((List.range js.length).filter (fun k => k != i)).map (fun k => transfer_move js i k)))

/-- The candidate loop of `_helper` on the arena: each candidate is attached
(appended with parent `cur`) iff `state_exists` fails; if the candidate
satisfies the goal it is flagged (observable only when attached, because a
discarded candidate object is dropped) and `GoalFound` is raised, which the
frame reports as the Boolean `true`. -/
def process_candidates (goal : Int) (cur : Nat) :
    List JugsState → List (List Jug) → List JugsState × Bool
  | nodes, [] => (nodes, false)
  | nodes, cand :: rest =>
    if state_exists nodes cand then
      if has_fill_amount cand goal then (nodes, true)
      else process_candidates goal cur nodes rest
    else
      if has_fill_amount cand goal then (nodes ++ [⟨cand, true, some cur⟩], true)
      else process_candidates goal cur (nodes ++ [⟨cand, false, some cur⟩]) rest

/-- `next_states` of node `cur`, recovered from the arena: the indices whose
parent is `cur`, ascending (= attachment order). -/
def children_of (nodes : List JugsState) (cur : Nat) : List Nat :=
  (List.range nodes.length).filter (fun j =>
    match nodes[j]? with
    | some n => n.parent == some cur
    | none => false)

/-- The child loop of `_helper`: for each already-attached child in order, if
its goal flag is set raise `GoalFound` (caught by this same frame, so simply
stop), otherwise recurse via `step` (the `_helper` call at smaller fuel); a
`none` from `step` means fuel ran out. -/
def run_children_go (step : List JugsState → Nat → Option (List JugsState)) :
    List JugsState → List Nat → Option (List JugsState)
  | nodes, [] => some nodes
  | nodes, c :: cs =>
    match nodes[c]? with
    | none => some nodes
    | some st =>
      if st.goal_flag then some nodes
      else
        match step nodes c with
        | none => none
        | some nodes2 => run_children_go step nodes2 cs

/-- `graph_it._helper` on the arena: process the candidates of `cur`; on
`GoalFound` stop (the exception is caught by this frame's `except`), else run
the child loop.  Fuel bounds the recursion depth. -/
def graph_helper (goal : Int) : Nat → List JugsState → Nat → Option (List JugsState)
  | 0, _, _ => none
  | fuel + 1, nodes, cur =>
    match nodes[cur]? with
    | none => some nodes
    | some st =>
      let r := process_candidates goal cur nodes (gen_moves st.jugs)
      if r.2 then some r.1
      else run_children_go (graph_helper goal fuel) r.1 (children_of r.1 cur)

/-- `JugsGraph.graph_it`: set `graphed` and run `_helper` on the root. -/
def graph_it (g : JugsGraph) (fuel : Nat) : Option JugsGraph :=
  match graph_helper g.goal fuel g.nodes 0 with
  | none => none
  | some ns => some { g with nodes := ns, graphed := true }

/-- The chain of parent indices of node `x` (nearest first), following the
back-references exactly as `_get_state_path` does.  The fuel is immaterial
whenever it exceeds `x`, because parents of well-formed graphs have smaller
indices. -/
def anc (nodes : List JugsState) : Nat → Nat → List Nat
  | 0, _ => []
  | fuel + 1, x =>
    match nodes[x]? with
    | some st =>
      match st.parent with
      | some p => p :: anc nodes fuel p
      | none => []
    | none => []

/-- `print_solutions._get_state_path`: the states from the root down to node
`x` inclusive (each state shown as its jug list, which is what the source
prints). -/
def get_state_path (nodes : List JugsState) (x : Nat) : List (List Jug) :=
  ((x :: anc nodes nodes.length x).reverse).map (fun i =>
    match nodes[i]? with
    | some st => st.jugs
    | none => [])

/-- One printed solution: the root-to-goal state list and the printed
`"%i steps"` count (the number of states in the list). -/
structure Solution where
  steps : Nat
  list : List (List Jug)
deriving DecidableEq, Repr

/-- The solution recorded for goal node `i`. -/
def mk_solution (nodes : List JugsState) (i : Nat) : Solution :=
  let l := get_state_path nodes i
  { steps := l.length, list := l }

/-- `print_solutions._traverse_states`: depth-first over the children lists;
at a flagged state record it (and do not descend), otherwise recurse.
Returns the flagged indices in traversal order. -/
def traverse_states (nodes : List JugsState) : Nat → Nat → List Nat
  | 0, _ => []
  | fuel + 1, i =>
    match nodes[i]? with
    | none => []
    | some st =>
      if st.goal_flag then [i]
      else (children_of nodes i).flatMap (fun c => traverse_states nodes fuel c)

/-- The best-solution scan of `print_solutions`: `min_steps` starts at the
sentinel `9999999999` and `solution` at `None`; each solution with strictly
fewer steps than the current minimum replaces it. -/
def find_min_aux : Nat → Option Solution → List Solution → Option Solution
  | _, best, [] => best
  | m, best, s :: rest =>
    if s.steps < m then find_min_aux s.steps (some s) rest
    else find_min_aux m best rest

/-- The best-solution scan over the collected solutions. -/
def find_min (sols : List Solution) : Option Solution :=
  find_min_aux 9999999999 none sols

/-- What `print_solutions` prints: the not-graphed reminder, the no-solution
message, or all solutions followed by the best one. -/
inductive Report where
  | run_graph_it_first
  | no_solution
  | solutions (sols : List Solution) (best : Option Solution)
deriving DecidableEq, Repr

/-- `JugsGraph.print_solutions` as a function from the graph to its printed
report: traverse for flagged states, report `no_solution` when none was
numbered, otherwise every solution and the best one. -/
def print_solutions (g : JugsGraph) : Report :=
  if g.graphed then
    let sols := (traverse_states g.nodes g.nodes.length 0).map (mk_solution g.nodes)
    if sols.length = 0 then Report.no_solution
    else Report.solutions sols (find_min sols)
  else Report.run_graph_it_first

/-! ## Basic lemmas about `is_same` -/

/-- Unfolding `is_same` on a pair of head jugs. -/
lemma is_same_cons (x y : Jug) (a b : List Jug) :
    is_same (x :: a) (y :: b) =
      ((!(x.capacity == y.capacity && x.amount != y.amount)) && is_same a b) := by
  simp [is_same]

/-- `is_same` against the empty list is vacuously true. -/
lemma is_same_nil_left (b : List Jug) : is_same [] b = true := by
  simp [is_same]

/-- `is_same` with the empty list is vacuously true. -/
lemma is_same_nil_right (a : List Jug) : is_same a [] = true := by
  simp [is_same]

/-- The per-position test of `is_same`, as a proposition. -/
lemma is_same_pair (x y : Jug) :
    ((!(x.capacity == y.capacity && x.amount != y.amount)) = true) ↔
      (x.capacity = y.capacity → x.amount = y.amount) := by
  by_cases hc : x.capacity = y.capacity <;> by_cases ha : x.amount = y.amount <;>
    simp [hc, ha]

/-- `is_same` spelled out positionwise over the zipped lists. -/
lemma is_same_iff_forall_zip (a b : List Jug) :
    is_same a b = true ↔
      ∀ p ∈ a.zip b, p.1.capacity = p.2.capacity → p.1.amount = p.2.amount := by
  unfold is_same
  rw [List.all_eq_true]
  exact ⟨fun h p hp => (is_same_pair p.1 p.2).mp (h p hp),
         fun h p hp => (is_same_pair p.1 p.2).mpr (h p hp)⟩

/-- A state is `is_same` as itself. -/
lemma is_same_refl (a : List Jug) : is_same a a = true := by
  rw [is_same_iff_forall_zip]
  intro p hp _
  have := List.zip_eq_zipWith a a ▸ hp
  rw [List.zipWith_same] at this
  obtain ⟨x, _, hx⟩ := List.mem_map.mp this
  simp [← hx]

/-- For lists of equal length, `is_same` is symmetric. -/
lemma is_same_symm (a b : List Jug) (h : a.length = b.length) :
    is_same a b = is_same b a := by
  induction a generalizing b with
  | nil => cases b with
    | nil => rfl
    | cons y b => simp at h
  | cons x a ih => cases b with
    | nil => simp at h
    | cons y b =>
      rw [is_same_cons, is_same_cons, ih b (by simpa using h)]
      have h1 : (x.capacity == y.capacity) = (y.capacity == x.capacity) := by
        rw [Bool.eq_iff_iff, beq_iff_eq, beq_iff_eq]
        exact eq_comm
      have h2 : (x.amount != y.amount) = (y.amount != x.amount) := by
        rw [Bool.eq_iff_iff, bne_iff_ne, bne_iff_ne]
        exact ne_comm
      rw [h1, h2]

/-- When the capacity vectors agree positionwise, `is_same` is exactly
equality of the amount vectors. -/
lemma is_same_iff_amounts (a b : List Jug)
    (h : a.map Jug.capacity = b.map Jug.capacity) :
    (is_same a b = true ↔ a.map Jug.amount = b.map Jug.amount) := by
  induction a generalizing b with
  | nil =>
    cases b with
    | nil => simp [is_same_nil_left]
    | cons y b => simp at h
  | cons x a ih =>
    cases b with
    | nil => simp at h
    | cons y b =>
      simp only [List.map_cons, List.cons.injEq] at h
      rw [is_same_cons, Bool.and_eq_true, is_same_pair, ih b h.2]
      simp [h.1]

/-- CLAIM C3 (counterexample): the claim says `is_same` returns true *only
if* every capacity matches and every amount matches.  The single-jug states
`3/3` (capacity 3, amount 3) and `5/5` have the same number of containers,
matching neither capacity nor amount, yet `is_same` answers `true`, because
the source skips every position whose capacities differ. -/
theorem C3_counterexample :
    is_same [⟨3, 3⟩] [⟨5, 5⟩] = true ∧
      ¬((Jug.capacity ⟨3, 3⟩ = Jug.capacity ⟨5, 5⟩) ∧
        (Jug.amount ⟨3, 3⟩ = Jug.amount ⟨5, 5⟩)) := by
  refine ⟨by decide, by decide⟩

/-- CLAIM C3 (amended): for two states with the same number of containers,
`is_same` returns true iff at every position the capacities differ or the
amounts agree; in particular, when the capacity vectors align positionwise it
is exactly amount-vector equality, so swapped amounts at two positions with
equal capacities are not equivalent. -/
theorem C3_amended_holds (a b : List Jug) (h : a.length = b.length) :
    (is_same a b = true ↔
      ∀ p ∈ a.zip b, p.1.capacity = p.2.capacity → p.1.amount = p.2.amount) ∧
    (a.map Jug.capacity = b.map Jug.capacity →
      (is_same a b = true ↔ a.map Jug.amount = b.map Jug.amount)) := by
  exact ⟨is_same_iff_forall_zip a b, is_same_iff_amounts a b⟩

/-- Witness for C3: the amended characterisation applied to the concrete
states `[3/1, 5/2]` and `[3/2, 5/1]` (equal capacities, swapped amounts). -/
theorem C3_witness :
    (is_same [⟨3, 1⟩, ⟨5, 2⟩] [⟨3, 2⟩, ⟨5, 1⟩] = true ↔
      ∀ p ∈ (List.zip [⟨3, 1⟩, ⟨5, 2⟩] [⟨3, 2⟩, ⟨5, 1⟩] : List (Jug × Jug)),
        p.1.capacity = p.2.capacity → p.1.amount = p.2.amount) ∧
    (List.map Jug.capacity [⟨3, 1⟩, ⟨5, 2⟩] = List.map Jug.capacity [⟨3, 2⟩, ⟨5, 1⟩] →
      (is_same [⟨3, 1⟩, ⟨5, 2⟩] [⟨3, 2⟩, ⟨5, 1⟩] = true ↔
        List.map Jug.amount [⟨3, 1⟩, ⟨5, 2⟩] = List.map Jug.amount [⟨3, 2⟩, ⟨5, 1⟩])) :=
  C3_amended_holds [⟨3, 1⟩, ⟨5, 2⟩] [⟨3, 2⟩, ⟨5, 1⟩] rfl

/-! ## The pour arithmetic (C5) and the single-operation range invariant -/

/-- CLAIM C5: pouring transfers exactly `min(a, c - b)`: the destination ends
at `b + min(a, c - b)`, the source at `a - min(a, c - b)`, capacities are
untouched, and pouring into a full container or from an empty container
changes neither jug. -/
theorem C5_transfer_min (src dst : Jug)
    (hsrc : 0 ≤ src.amount) (hdst0 : 0 ≤ dst.amount) (hdst : dst.amount ≤ dst.capacity) :
    (src.transfer dst).2.amount = dst.amount + min src.amount (dst.capacity - dst.amount) ∧
    (src.transfer dst).1.amount = src.amount - min src.amount (dst.capacity - dst.amount) ∧
    (src.transfer dst).2.capacity = dst.capacity ∧
    (src.transfer dst).1.capacity = src.capacity ∧
    (dst.amount = dst.capacity → src.transfer dst = (src, dst)) ∧
    (src.amount = 0 → src.transfer dst = (src, dst)) := by
  obtain ⟨sc, sa⟩ := src
  obtain ⟨dc, da⟩ := dst
  simp only [Jug.transfer, Jug._fill] at *
  split <;>
    simp_all [Prod.ext_iff, Jug.mk.injEq] <;> omega

/-- Witness for C5: the transfer law applied to pouring a full 5-jug into a
3-jug holding 1. -/
theorem C5_witness :
    ((Jug.transfer ⟨5, 5⟩ ⟨3, 1⟩).2.amount =
        Jug.amount ⟨3, 1⟩ + min (Jug.amount ⟨5, 5⟩) (Jug.capacity ⟨3, 1⟩ - Jug.amount ⟨3, 1⟩)) ∧
    ((Jug.transfer ⟨5, 5⟩ ⟨3, 1⟩).1.amount =
        Jug.amount ⟨5, 5⟩ - min (Jug.amount ⟨5, 5⟩) (Jug.capacity ⟨3, 1⟩ - Jug.amount ⟨3, 1⟩)) ∧
    ((Jug.transfer ⟨5, 5⟩ ⟨3, 1⟩).2.capacity = Jug.capacity ⟨3, 1⟩) ∧
    ((Jug.transfer ⟨5, 5⟩ ⟨3, 1⟩).1.capacity = Jug.capacity ⟨5, 5⟩) ∧
    (Jug.amount ⟨3, 1⟩ = Jug.capacity ⟨3, 1⟩ →
      Jug.transfer ⟨5, 5⟩ ⟨3, 1⟩ = (⟨5, 5⟩, ⟨3, 1⟩)) ∧
    (Jug.amount ⟨5, 5⟩ = 0 → Jug.transfer ⟨5, 5⟩ ⟨3, 1⟩ = (⟨5, 5⟩, ⟨3, 1⟩)) :=
  C5_transfer_min ⟨5, 5⟩ ⟨3, 1⟩ (by decide) (by decide) (by decide)

/-! ## The graph only grows: every step appends to the arena -/

/-- `b` extends `a` by appending (states are never removed or modified, only
attached). -/
def Grows (a b : List JugsState) : Prop := ∃ t, b = a ++ t

/-- `Grows` is reflexive. -/
lemma grows_refl (a : List JugsState) : Grows a a := ⟨[], by simp⟩

/-- `Grows` is transitive. -/
lemma grows_trans {a b c : List JugsState} (h1 : Grows a b) (h2 : Grows b c) :
    Grows a c := by
  obtain ⟨t1, rfl⟩ := h1
  obtain ⟨t2, rfl⟩ := h2
  exact ⟨t1 ++ t2, by simp⟩

/-- The candidate loop only appends states. -/
lemma process_candidates_grows (goal : Int) (cur : Nat) :
    ∀ (cands : List (List Jug)) (nodes : List JugsState),
      Grows nodes (process_candidates goal cur nodes cands).1 := by
  intro cands
  induction cands with
  | nil => exact fun nodes => grows_refl nodes
  | cons cand rest ih =>
    intro nodes
    rw [process_candidates]
    by_cases he : state_exists nodes cand = true <;>
      by_cases hg : has_fill_amount cand goal = true <;>
      simp only [he, hg, if_true, if_false, Bool.false_eq_true, if_neg, ite_true, ite_false]
    · exact grows_refl nodes
    · exact ih nodes
    · exact ⟨_, rfl⟩
    · exact grows_trans ⟨_, rfl⟩ (ih _)

/-- The child loop only appends states, provided each `step` call does. -/
lemma run_children_go_grows (step : List JugsState → Nat → Option (List JugsState))
    (hstep : ∀ ns c ns2, step ns c = some ns2 → Grows ns ns2) :
    ∀ (cs : List Nat) (nodes ns2 : List JugsState),
      run_children_go step nodes cs = some ns2 → Grows nodes ns2 := by
  intro cs
  induction cs with
  | nil =>
    intro nodes ns2 h
    rw [run_children_go] at h
    cases h
    exact grows_refl _
  | cons c cs ih =>
    intro nodes ns2 h
    rw [run_children_go] at h
    cases hn : nodes[c]? with
    | none =>
      rw [hn] at h
      cases h
      exact grows_refl _
    | some st =>
      rw [hn] at h
      by_cases hf : st.goal_flag = true
      · simp only [hf, if_true] at h
        cases h
        exact grows_refl _
      · simp only [hf, if_false] at h
        cases hs : step nodes c with
        | none => rw [hs] at h; cases h
        | some nodes2 =>
          rw [hs] at h
          exact grows_trans (hstep _ _ _ hs) (ih _ _ h)

/-- `_helper` only appends states to the arena. -/
lemma graph_helper_grows (goal : Int) :
    ∀ (fuel : Nat) (nodes : List JugsState) (cur : Nat) (ns2 : List JugsState),
      graph_helper goal fuel nodes cur = some ns2 → Grows nodes ns2 := by
  intro fuel
  induction fuel with
  | zero => intro nodes cur ns2 h; rw [graph_helper] at h; cases h
  | succ fuel ih =>
    intro nodes cur ns2 h
    rw [graph_helper] at h
    cases hn : nodes[cur]? with
    | none =>
      rw [hn] at h
      cases h
      exact grows_refl _
    | some st =>
      rw [hn] at h
      by_cases hr : (process_candidates goal cur nodes (gen_moves st.jugs)).2 = true
      · simp only [hr, if_true] at h
        cases h
        exact process_candidates_grows goal cur _ _
      · simp only [hr, if_false] at h
        exact grows_trans (process_candidates_grows goal cur (gen_moves st.jugs) nodes)
          (run_children_go_grows _ (fun ns c => ih ns c) _ _ _ h)

/-! ## The arena invariant maintained by expansion -/

/-- A jug list is well-formed for a run with capacities `caps`: its capacity
vector is `caps` positionwise and every amount lies in `[0, capacity]`. -/
def jugs_wf (caps : List Int) (js : List Jug) : Prop :=
  js.map Jug.capacity = caps ∧ ∀ j ∈ js, 0 ≤ j.amount ∧ j.amount ≤ j.capacity

/-- The structural invariant of the arena: a single unflagged parentless root
in front; every other node points to an earlier, unflagged parent (goal
states are never expanded); all states well-formed; and no two attached
states are `is_same` (the dedup check guards every attachment). -/
structure GraphInv (caps : List Int) (nodes : List JugsState) : Prop where
  root : ∃ st rest, nodes = st :: rest ∧ st.parent = none ∧ st.goal_flag = false
  parents : ∀ (i : Nat) (st : JugsState), nodes[i]? = some st → 0 < i →
    ∃ (p : Nat) (pst : JugsState), st.parent = some p ∧ p < i ∧
      nodes[p]? = some pst ∧ pst.goal_flag = false
  wf : ∀ st ∈ nodes, jugs_wf caps st.jugs
  distinct : ∀ (i j : Nat) (si sj : JugsState), nodes[i]? = some si →
    nodes[j]? = some sj → i ≠ j → is_same si.jugs sj.jugs = false

/-- Well-formed jug lists have as many jugs as there are capacities. -/
lemma jugs_wf_length {caps : List Int} {js : List Jug} (h : jugs_wf caps js) :
    js.length = caps.length := by
  rw [← h.1, List.length_map]

/-- Setting an index to the value it already holds leaves a list unchanged. -/
lemma set_getElem?_self {α : Type} (l : List α) (i : Nat) (a : α) (h : l[i]? = some a) :
    l.set i a = l := by
  induction l generalizing i with
  | nil => cases h
  | cons x xs ih =>
    cases i with
    | zero =>
      simp only [List.getElem?_cons_zero, Option.some.injEq] at h
      simp [h]
    | succ n =>
      simp only [List.getElem?_cons_succ] at h
      simp [ih n h]

/-- `_fill` never changes the capacity. -/
lemma _fill_capacity (j : Jug) (a : Int) : (j._fill a).1.capacity = j.capacity := by
  simp only [Jug._fill]
  split <;> rfl

/-- Both jugs stay in range under `transfer`, and capacities are unchanged. -/
lemma transfer_range (src dst : Jug)
    (h1 : 0 ≤ src.amount) (h2 : src.amount ≤ src.capacity)
    (h3 : 0 ≤ dst.amount) (h4 : dst.amount ≤ dst.capacity) :
    (0 ≤ (src.transfer dst).1.amount ∧
      (src.transfer dst).1.amount ≤ (src.transfer dst).1.capacity) ∧
    (0 ≤ (src.transfer dst).2.amount ∧
      (src.transfer dst).2.amount ≤ (src.transfer dst).2.capacity) := by
  obtain ⟨sc, sa⟩ := src
  obtain ⟨dc, da⟩ := dst
  simp only [Jug.transfer, Jug._fill] at *
  split <;> simp_all <;> omega

/-- The fill candidate is well-formed. -/
lemma fill_move_wf {caps : List Int} {js : List Jug} (hc : ∀ c ∈ caps, 0 ≤ c)
    (h : jugs_wf caps js) (i : Nat) : jugs_wf caps (fill_move js i) := by
  unfold fill_move
  cases hj : js[i]? with
  | none => exact h
  | some j =>
    have hjm : j ∈ js := List.mem_iff_getElem?.mpr ⟨i, hj⟩
    have hcap : 0 ≤ j.capacity := by
      apply hc
      rw [← h.1]
      exact List.mem_map_of_mem Jug.capacity hjm
    constructor
    · rw [List.map_set]
      have hv : (js.map Jug.capacity)[i]? = some j.capacity := by
        rw [List.getElem?_map, hj]
        rfl
      rw [show (Jug.fill_to_full j).capacity = j.capacity from rfl,
        set_getElem?_self _ i _ hv, h.1]
    · intro x hx
      rcases List.mem_or_eq_of_mem_set hx with hmem | rfl
      · exact h.2 x hmem
      · exact ⟨hcap, le_refl _⟩

/-- The empty candidate is well-formed. -/
lemma empty_move_wf {caps : List Int} {js : List Jug} (hc : ∀ c ∈ caps, 0 ≤ c)
    (h : jugs_wf caps js) (i : Nat) : jugs_wf caps (empty_move js i) := by
  unfold empty_move
  cases hj : js[i]? with
  | none => exact h
  | some j =>
    have hjm : j ∈ js := List.mem_iff_getElem?.mpr ⟨i, hj⟩
    have hcap : 0 ≤ j.capacity := by
      apply hc
      rw [← h.1]
      exact List.mem_map_of_mem Jug.capacity hjm
    constructor
    · rw [List.map_set]
      have hv : (js.map Jug.capacity)[i]? = some j.capacity := by
        rw [List.getElem?_map, hj]
        rfl
      rw [show (Jug.empty j).capacity = j.capacity from rfl,
        set_getElem?_self _ i _ hv, h.1]
    · intro x hx
      rcases List.mem_or_eq_of_mem_set hx with hmem | rfl
      · exact h.2 x hmem
      · exact ⟨le_refl _, hcap⟩

/-- The transfer candidate is well-formed. -/
lemma transfer_move_wf {caps : List Int} {js : List Jug}
    (h : jugs_wf caps js) (i k : Nat) : jugs_wf caps (transfer_move js i k) := by
  unfold transfer_move
  cases hi : js[i]? with
  | none => exact h
  | some src =>
    cases hk : js[k]? with
    | none => exact h
    | some dst =>
      have him : src ∈ js := List.mem_iff_getElem?.mpr ⟨i, hi⟩
      have hkm : dst ∈ js := List.mem_iff_getElem?.mpr ⟨k, hk⟩
      obtain ⟨hs1, hs2⟩ := h.2 src him
      obtain ⟨hd1, hd2⟩ := h.2 dst hkm
      have hr := transfer_range src dst hs1 hs2 hd1 hd2
      constructor
      · rw [List.map_set, List.map_set]
        have hvi : (js.map Jug.capacity)[i]? = some src.capacity := by
          rw [List.getElem?_map, hi]
          rfl
        have hc1 : ((src.transfer dst).1).capacity = src.capacity := rfl
        have hc2 : ((src.transfer dst).2).capacity = dst.capacity :=
          _fill_capacity dst src.amount
        rw [hc1, hc2, set_getElem?_self _ i _ hvi]
        have hvk : (js.map Jug.capacity)[k]? = some dst.capacity := by
          rw [List.getElem?_map, hk]
          rfl
        rw [set_getElem?_self _ k _ hvk, h.1]
      · intro x hx
        rcases List.mem_or_eq_of_mem_set hx with hmem | rfl
        · rcases List.mem_or_eq_of_mem_set hmem with hmem2 | rfl
          · exact h.2 x hmem2
          · exact hr.1
        · exact hr.2

/-- Every candidate generated from a well-formed state is well-formed. -/
lemma gen_moves_wf {caps : List Int} {js : List Jug} (hc : ∀ c ∈ caps, 0 ≤ c)
    (h : jugs_wf caps js) : ∀ m ∈ gen_moves js, jugs_wf caps m := by
  intro m hm
  unfold gen_moves at hm
  rw [List.mem_flatMap] at hm
  obtain ⟨i, _, hm⟩ := hm
  simp only [List.mem_cons, List.mem_map, List.mem_filter] at hm
  rcases hm with rfl | rfl | ⟨k, _, rfl⟩
  · exact fill_move_wf hc h i
  · exact empty_move_wf hc h i
  · exact transfer_move_wf h i k

/-- A failed dedup check means the candidate matches no attached state. -/
lemma state_exists_eq_false {nodes : List JugsState} {cand : List Jug}
    (h : state_exists nodes cand = false) :
    ∀ n ∈ nodes, is_same cand n.jugs = false := by
  rw [state_exists, List.any_eq_false] at h
  intro n hn
  exact Bool.eq_false_iff.mpr (h n hn)

/-- Attaching a fresh, well-formed, not-yet-present candidate below an
unflagged attached state preserves the invariant. -/
lemma inv_append {caps : List Int} {nodes : List JugsState} (cur : Nat)
    (cand : List Jug) (flag : Bool) (hinv : GraphInv caps nodes)
    (hwf : jugs_wf caps cand) (hnew : state_exists nodes cand = false)
    (cst : JugsState) (hcur : nodes[cur]? = some cst) (hcf : cst.goal_flag = false) :
    GraphInv caps (nodes ++ [⟨cand, flag, some cur⟩]) := by
  have hcl : cur < nodes.length := by
    by_contra hlt
    rw [List.getElem?_eq_none (Nat.le_of_not_lt hlt)] at hcur
    cases hcur
  have hget : ∀ (x : Nat) (sx : JugsState),
      (nodes ++ [⟨cand, flag, some cur⟩])[x]? = some sx →
      (x < nodes.length ∧ nodes[x]? = some sx) ∨
        (x = nodes.length ∧ sx = ⟨cand, flag, some cur⟩) := by
    intro x sx hx
    by_cases hxl : x < nodes.length
    · rw [List.getElem?_append_left hxl] at hx
      exact Or.inl ⟨hxl, hx⟩
    · by_cases hxe : x = nodes.length
      · subst hxe
        rw [List.getElem?_concat_length] at hx
        cases hx
        exact Or.inr ⟨rfl, rfl⟩
      · have hxnone : (nodes ++ [⟨cand, flag, some cur⟩])[x]? = none := by
          apply List.getElem?_eq_none
          simp only [List.length_append, List.length_cons, List.length_nil]
          omega
        rw [hxnone] at hx
        cases hx
  constructor
  · obtain ⟨st, rest, hr, hp, hf⟩ := hinv.root
    exact ⟨st, rest ++ [⟨cand, flag, some cur⟩], by rw [hr]; simp, hp, hf⟩
  · intro i st hi hipos
    rcases hget i st hi with ⟨hil, hio⟩ | ⟨hie, rfl⟩
    · obtain ⟨p, pst, h1, h2, h3, h4⟩ := hinv.parents i st hio hipos
      exact ⟨p, pst, h1, h2, by
        rw [List.getElem?_append_left (lt_trans h2 hil)]
        exact h3, h4⟩
    · exact ⟨cur, cst, rfl, hie ▸ hcl, by
        rw [List.getElem?_append_left hcl]
        exact hcur, hcf⟩
  · intro st hst
    rcases List.mem_append.mp hst with h | h
    · exact hinv.wf st h
    · rw [List.mem_singleton] at h
      subst h
      exact hwf
  · intro i j si sj hi hj hij
    rcases hget i si hi with ⟨hil, hio⟩ | ⟨hie, rfl⟩ <;>
      rcases hget j sj hj with ⟨hjl, hjo⟩ | ⟨hje, rfl⟩
    · exact hinv.distinct i j si sj hio hjo hij
    · have hsim : si ∈ nodes := List.mem_iff_getElem?.mpr ⟨i, hio⟩
      have hlen : si.jugs.length = cand.length := by
        rw [jugs_wf_length (hinv.wf si hsim), jugs_wf_length hwf]
      show is_same si.jugs cand = false
      rw [is_same_symm si.jugs cand hlen]
      exact state_exists_eq_false hnew si hsim
    · have hsjm : sj ∈ nodes := List.mem_iff_getElem?.mpr ⟨j, hjo⟩
      exact state_exists_eq_false hnew sj hsjm
    · exact absurd (hie.trans hje.symm) hij

/-- The candidate loop preserves the invariant. -/
lemma process_candidates_inv {caps : List Int} (goal : Int) (cur : Nat) :
    ∀ (cands : List (List Jug)) (nodes : List JugsState), GraphInv caps nodes →
      (∀ m ∈ cands, jugs_wf caps m) →
      (∀ cst, nodes[cur]? = some cst → cst.goal_flag = false) →
      (∃ cst, nodes[cur]? = some cst) →
      GraphInv caps (process_candidates goal cur nodes cands).1 := by
  intro cands
  induction cands with
  | nil => intro nodes hinv _ _ _; exact hinv
  | cons cand rest ih =>
    intro nodes hinv hcands hcflag hcsome
    obtain ⟨cst, hcur⟩ := hcsome
    rw [process_candidates]
    by_cases he : state_exists nodes cand = true <;>
      by_cases hg : has_fill_amount cand goal = true <;>
      simp only [he, hg, if_true, if_false, Bool.false_eq_true, ite_true, ite_false]
    · exact hinv
    · exact ih nodes hinv (fun m hm => hcands m (List.mem_cons_of_mem _ hm)) hcflag ⟨cst, hcur⟩
    · exact inv_append cur cand true hinv (hcands cand (List.mem_cons_self _ _))
        (Bool.eq_false_iff.mpr he) cst hcur (hcflag cst hcur)
    · have hinv2 := inv_append cur cand false hinv (hcands cand (List.mem_cons_self _ _))
        (Bool.eq_false_iff.mpr he) cst hcur (hcflag cst hcur)
      have hcl : cur < nodes.length := by
        by_contra hlt
        rw [List.getElem?_eq_none (Nat.le_of_not_lt hlt)] at hcur
        cases hcur
      refine ih _ hinv2 (fun m hm => hcands m (List.mem_cons_of_mem _ hm)) ?_ ?_
      · intro cst2 hcur2
        rw [List.getElem?_append_left hcl, hcur] at hcur2
        cases hcur2
        exact hcflag cst hcur
      · exact ⟨cst, by rw [List.getElem?_append_left hcl]; exact hcur⟩

/-- The child loop preserves the invariant, provided the step function does
so below unflagged attached nodes. -/
lemma run_children_go_inv {caps : List Int}
    (step : List JugsState → Nat → Option (List JugsState))
    (hstep : ∀ ns c ns2 cst, GraphInv caps ns → ns[c]? = some cst → cst.goal_flag = false →
      step ns c = some ns2 → GraphInv caps ns2) :
    ∀ (cs : List Nat) (nodes ns2 : List JugsState), GraphInv caps nodes →
      run_children_go step nodes cs = some ns2 → GraphInv caps ns2 := by
  intro cs
  induction cs with
  | nil =>
    intro nodes ns2 hinv h
    rw [run_children_go] at h
    cases h
    exact hinv
  | cons c cs ih =>
    intro nodes ns2 hinv h
    rw [run_children_go] at h
    cases hn : nodes[c]? with
    | none =>
      rw [hn] at h
      cases h
      exact hinv
    | some st =>
      rw [hn] at h
      by_cases hf : st.goal_flag = true
      · simp only [hf, if_true] at h
        cases h
        exact hinv
      · simp only [hf, if_false] at h
        cases hs : step nodes c with
        | none => rw [hs] at h; cases h
        | some nodes2 =>
          rw [hs] at h
          exact ih nodes2 ns2
            (hstep nodes c nodes2 st hinv hn (Bool.eq_false_iff.mpr hf) hs) h

/-- `_helper` preserves the invariant whenever the expanded node is attached
and unflagged (the only way it is ever called). -/
lemma graph_helper_inv {caps : List Int} (goal : Int) (hc : ∀ c ∈ caps, 0 ≤ c) :
    ∀ (fuel : Nat) (nodes : List JugsState) (cur : Nat) (ns2 : List JugsState),
      GraphInv caps nodes → (∀ cst, nodes[cur]? = some cst → cst.goal_flag = false) →
      graph_helper goal fuel nodes cur = some ns2 → GraphInv caps ns2 := by
  intro fuel
  induction fuel with
  | zero =>
    intro nodes cur ns2 _ _ h
    rw [graph_helper] at h
    cases h
  | succ fuel ih =>
    intro nodes cur ns2 hinv hflag h
    rw [graph_helper] at h
    cases hn : nodes[cur]? with
    | none =>
      rw [hn] at h
      cases h
      exact hinv
    | some st =>
      rw [hn] at h
      have hstm : st ∈ nodes := List.mem_iff_getElem?.mpr ⟨cur, hn⟩
      have hpc := process_candidates_inv goal cur (gen_moves st.jugs)
        nodes hinv (gen_moves_wf hc (hinv.wf st hstm)) hflag ⟨st, hn⟩
      by_cases hr : (process_candidates goal cur nodes (gen_moves st.jugs)).2 = true
      · simp only [hr, if_true] at h
        cases h
        exact hpc
      · simp only [hr, if_false] at h
        refine run_children_go_inv _ ?_ _ _ _ hpc h
        intro ns c ns3 cst hi hg hfc hs
        exact ih ns c ns3 hi (fun cst2 h2 => by
          rw [hg] at h2
          cases h2
          exact hfc) hs

/-- The initial graph satisfies the invariant. -/
lemma mk_graph_inv (caps : List Int) (goal : Int) (hc : ∀ c ∈ caps, 0 ≤ c) :
    GraphInv caps (JugsGraph.mk_graph caps goal).nodes := by
  constructor
  · exact ⟨_, [], rfl, rfl, rfl⟩
  · intro i st hi hipos
    rw [List.getElem?_eq_none (by
      show (1 : Nat) ≤ i
      omega)] at hi
    cases hi
  · intro st hst
    rw [show (JugsGraph.mk_graph caps goal).nodes =
      [⟨caps.map (fun c => ⟨c, 0⟩), false, none⟩] from rfl, List.mem_singleton] at hst
    subst hst
    constructor
    · show (caps.map (fun c => (⟨c, 0⟩ : Jug))).map Jug.capacity = caps
      rw [List.map_map]
      have hcomp : (Jug.capacity ∘ fun c => (⟨c, 0⟩ : Jug)) = id := rfl
      rw [hcomp, List.map_id]
    · intro j hj
      rw [List.mem_map] at hj
      obtain ⟨c, hcm, rfl⟩ := hj
      exact ⟨le_refl 0, hc c hcm⟩
  · intro i j si sj hi hj hij
    have hi1 : i < 1 := by
      by_contra hgt
      rw [List.getElem?_eq_none (by
        show (1 : Nat) ≤ i
        omega)] at hi
      cases hi
    have hj1 : j < 1 := by
      by_contra hgt
      rw [List.getElem?_eq_none (by
        show (1 : Nat) ≤ j
        omega)] at hj
      cases hj
    omega

/-- Every finished run satisfies the invariant. -/
lemma graph_it_inv {caps : List Int} {goal : Int} {fuel : Nat} {g : JugsGraph}
    (hc : ∀ c ∈ caps, 0 ≤ c)
    (h : graph_it (JugsGraph.mk_graph caps goal) fuel = some g) : GraphInv caps g.nodes := by
  unfold graph_it at h
  cases hg : graph_helper (JugsGraph.mk_graph caps goal).goal fuel
      (JugsGraph.mk_graph caps goal).nodes 0 with
  | none => rw [hg] at h; cases h
  | some ns =>
    rw [hg] at h
    cases h
    refine graph_helper_inv _ hc fuel _ 0 ns (mk_graph_inv caps goal hc) ?_ hg
    intro cst h2
    rw [show (JugsGraph.mk_graph caps goal).nodes[0]? =
      some ⟨caps.map (fun c => ⟨c, 0⟩), false, none⟩ from rfl] at h2
    cases h2
    rfl

/-! ## C1: the halt is per-frame, not global -/

/-- CLAIM C1 (counterexample): in the run with capacities `[3, 5]` and target
`4`, the first (and, at that time, only) goal state is the node at arena
index `10`, flagged at the moment it is attached — so the graph had `11`
nodes at the exact moment of discovery — yet the finished graph has `16`
nodes: five states created after the goal discovery were still attached,
because `GoalFound` is caught by the `except` of the same `_helper` frame
that raised it and siblings of the ancestors keep being expanded. -/
theorem C1_counterexample :
    (graph_it (JugsGraph.mk_graph [3, 5] 4) 20).map (fun g =>
      (g.nodes.findIdx (fun st => st.goal_flag), g.nodes.length)) = some (10, 16) ∧
    (10 + 1 : Nat) ≠ 16 :=
  ⟨rfl, by decide⟩

/-- CLAIM C1 (amended): marking a goal stops only the frame that created it:
no further candidate of the state under expansion is processed and the goal
state itself is never expanded — in every finished graph a flagged state has
no children, i.e. no attached state has a flagged parent — but pending
frames elsewhere continue, so the graph can keep growing after discovery. -/
theorem C1_amended_holds (caps : List Int) (goal : Int) (fuel : Nat) (g : JugsGraph)
    (hc : ∀ c ∈ caps, 0 < c)
    (h : graph_it (JugsGraph.mk_graph caps goal) fuel = some g) :
    ∀ (i p : Nat) (st pst : JugsState), g.nodes[i]? = some st → st.parent = some p →
      g.nodes[p]? = some pst → pst.goal_flag = false := by
  have hinv := graph_it_inv (fun c hm => le_of_lt (hc c hm)) h
  intro i p st pst hi hp hpst
  cases Nat.eq_zero_or_pos i with
  | inl h0 =>
    subst h0
    obtain ⟨st0, rest, hr, hpar, _⟩ := hinv.root
    rw [hr, List.getElem?_cons_zero] at hi
    cases hi
    rw [hpar] at hp
    cases hp
  | inr hpos =>
    obtain ⟨p', pst', h1, _, h3, h4⟩ := hinv.parents i st hi hpos
    rw [hp] at h1
    cases h1
    rw [hpst] at h3
    cases h3
    exact h4

/-! ## C2: the reported shortest solution for capacities [3, 5], target 4 -/

/-- CLAIM C2 (counterexample): in the run with capacities `[3, 5]` and target
`4` the engine reports two solutions, of 9 and 7 printed states, and the best
one has 7 states — not 6 as the claim (and the spec) states; the spec's own
example move list (fill 5, pour, empty 3, pour, fill 5, pour) already has 6
moves, i.e. 7 states counting the root. -/
theorem C2_counterexample :
    (graph_it (JugsGraph.mk_graph [3, 5] 4) 20).map (fun g =>
      match print_solutions g with
      | Report.solutions sols best => some (sols.map Solution.steps, best.map Solution.steps)
      | _ => none) = some (some ([9, 7], some 7)) ∧ ¬((7 : Nat) = 6) :=
  ⟨rfl, by decide⟩

/-- CLAIM C2 (amended): for capacities `[3, 5]` and target `4` a solution
exists and the shortest reported solution path has exactly 7 states (6
moves), from the all-empty root to the state where the 5-jug holds 4. -/
theorem C2_amended_holds :
    (graph_it (JugsGraph.mk_graph [3, 5] 4) 20).map (fun g =>
      match print_solutions g with
      | Report.solutions sols best => some (sols.length, best)
      | _ => none) =
    some (some (2, some { steps := 7, list :=
      [[⟨3, 0⟩, ⟨5, 0⟩], [⟨3, 0⟩, ⟨5, 5⟩], [⟨3, 3⟩, ⟨5, 2⟩], [⟨3, 0⟩, ⟨5, 2⟩],
       [⟨3, 2⟩, ⟨5, 0⟩], [⟨3, 2⟩, ⟨5, 5⟩], [⟨3, 3⟩, ⟨5, 4⟩]] })) := rfl

/-! ## C10: the goal predicate is never evaluated on the root -/

/-- CLAIM C10: the root's goal flag stays false in every run — expansion
checks `has_fill_amount` only on freshly created candidates, and a candidate
equal to the root is discarded as a duplicate before its flag could reach
the graph — hence for a single jug of capacity 7 and target 0 (satisfied
only by the root configuration) the engine reports no solution. -/
theorem C10_root_flag_false :
    (∀ (caps : List Int) (goal : Int) (fuel : Nat) (g : JugsGraph),
      graph_it (JugsGraph.mk_graph caps goal) fuel = some g →
      ∃ rest, g.nodes = (⟨caps.map (fun c => ⟨c, 0⟩), false, none⟩ : JugsState) :: rest) ∧
    (graph_it (JugsGraph.mk_graph [7] 0) 10).map print_solutions = some Report.no_solution := by
  constructor
  · intro caps goal fuel g h
    unfold graph_it at h
    cases hg : graph_helper (JugsGraph.mk_graph caps goal).goal fuel
        (JugsGraph.mk_graph caps goal).nodes 0 with
    | none => rw [hg] at h; cases h
    | some ns =>
      rw [hg] at h
      cases h
      obtain ⟨t, ht⟩ := graph_helper_grows goal fuel _ 0 ns hg
      exact ⟨t, ht⟩
  · rfl

/-- Witness for C10: the root-preservation clause applied to the concrete run
with a single jug of capacity 7 and target 0. -/
theorem C10_witness :
    ∃ rest, ((graph_it (JugsGraph.mk_graph [7] 0) 10).getD (JugsGraph.mk_graph [7] 0)).nodes =
      (⟨List.map (fun c => (⟨c, 0⟩ : Jug)) [7], false, none⟩ : JugsState) :: rest :=
  C10_root_flag_false.1 [7] 0 10 _ rfl

/-- Witness for C1: the amended flagged-states-are-leaves property applied to
the concrete run with capacities `[3, 5]` and target `4`, at the goal node
(index 10) and its parent (index 9, the state `3/3, 5/1`). -/
theorem C1_witness :
    (⟨[⟨3, 3⟩, ⟨5, 1⟩], false, some 8⟩ : JugsState).goal_flag = false :=
  C1_amended_holds [3, 5] 4 20
    ((graph_it (JugsGraph.mk_graph [3, 5] 4) 20).getD (JugsGraph.mk_graph [3, 5] 4))
    (by decide) rfl 10 9 ⟨[⟨3, 0⟩, ⟨5, 4⟩], true, some 9⟩ ⟨[⟨3, 3⟩, ⟨5, 1⟩], false, some 8⟩
    rfl rfl rfl

/-! ## C4: amounts stay in range -/

/-- CLAIM C4: fill-to-full, empty and transfer preserve `0 ≤ amount ≤
capacity` for every jug involved; consequently, in every finished run with
positive capacities every attached state's jugs all lie in range. -/
theorem C4_amount_in_range :
    (∀ j : Jug, 0 ≤ j.amount → j.amount ≤ j.capacity →
      (0 ≤ j.fill_to_full.amount ∧ j.fill_to_full.amount ≤ j.fill_to_full.capacity) ∧
      (0 ≤ j.empty.amount ∧ j.empty.amount ≤ j.empty.capacity)) ∧
    (∀ src dst : Jug, 0 ≤ src.amount → src.amount ≤ src.capacity →
      0 ≤ dst.amount → dst.amount ≤ dst.capacity →
      (0 ≤ (src.transfer dst).1.amount ∧
        (src.transfer dst).1.amount ≤ (src.transfer dst).1.capacity) ∧
      (0 ≤ (src.transfer dst).2.amount ∧
        (src.transfer dst).2.amount ≤ (src.transfer dst).2.capacity)) ∧
    (∀ (caps : List Int) (goal : Int) (fuel : Nat) (g : JugsGraph),
      (∀ c ∈ caps, 0 < c) → graph_it (JugsGraph.mk_graph caps goal) fuel = some g →
      ∀ st ∈ g.nodes, ∀ j ∈ st.jugs, 0 ≤ j.amount ∧ j.amount ≤ j.capacity) := by
  refine ⟨?_, ?_, ?_⟩
  · intro j h1 h2
    exact ⟨⟨le_trans h1 h2, le_refl _⟩, ⟨le_refl 0, le_trans h1 h2⟩⟩
  · intro src dst h1 h2 h3 h4
    exact transfer_range src dst h1 h2 h3 h4
  · intro caps goal fuel g hc h st hst j hj
    exact ((graph_it_inv (fun c hm => le_of_lt (hc c hm)) h).wf st hst).2 j hj

/-- Witness for C4: the three clauses applied to a jug `3/1`, to a pour of
`5/5` into `3/1`, and to the root jug `3/0` of the finished `[3, 5]`, target
4 run. -/
theorem C4_witness :
    ((0 ≤ (Jug.fill_to_full ⟨3, 1⟩).amount ∧
        (Jug.fill_to_full ⟨3, 1⟩).amount ≤ (Jug.fill_to_full ⟨3, 1⟩).capacity) ∧
      (0 ≤ (Jug.empty ⟨3, 1⟩).amount ∧
        (Jug.empty ⟨3, 1⟩).amount ≤ (Jug.empty ⟨3, 1⟩).capacity)) ∧
    ((0 ≤ (Jug.transfer ⟨5, 5⟩ ⟨3, 1⟩).1.amount ∧
        (Jug.transfer ⟨5, 5⟩ ⟨3, 1⟩).1.amount ≤ (Jug.transfer ⟨5, 5⟩ ⟨3, 1⟩).1.capacity) ∧
      (0 ≤ (Jug.transfer ⟨5, 5⟩ ⟨3, 1⟩).2.amount ∧
        (Jug.transfer ⟨5, 5⟩ ⟨3, 1⟩).2.amount ≤ (Jug.transfer ⟨5, 5⟩ ⟨3, 1⟩).2.capacity)) ∧
    (0 ≤ Jug.amount ⟨3, 0⟩ ∧ Jug.amount ⟨3, 0⟩ ≤ Jug.capacity ⟨3, 0⟩) :=
  ⟨C4_amount_in_range.1 ⟨3, 1⟩ (by decide) (by decide),
   C4_amount_in_range.2.1 ⟨5, 5⟩ ⟨3, 1⟩ (by decide) (by decide) (by decide) (by decide),
   C4_amount_in_range.2.2 [3, 5] 4 20
     ((graph_it (JugsGraph.mk_graph [3, 5] 4) 20).getD (JugsGraph.mk_graph [3, 5] 4))
     (by decide) rfl ⟨[⟨3, 0⟩, ⟨5, 0⟩], false, none⟩ (by decide) ⟨3, 0⟩ (by decide)⟩

/-! ## C6: global dedup — no two attached states are equivalent -/

/-- CLAIM C6: every attachment is guarded by `state_exists` over the whole
graph built so far (root plus all descendants), so in every finished run no
two attached states are `is_same`, and — since all states of one run carry
the same capacity vector — no two attached states share their amount
vector. -/
theorem C6_no_duplicate_states (caps : List Int) (goal : Int) (fuel : Nat) (g : JugsGraph)
    (hc : ∀ c ∈ caps, 0 < c)
    (h : graph_it (JugsGraph.mk_graph caps goal) fuel = some g) :
    ∀ (i j : Nat) (si sj : JugsState), g.nodes[i]? = some si → g.nodes[j]? = some sj →
      i ≠ j → is_same si.jugs sj.jugs = false ∧
        si.jugs.map Jug.amount ≠ sj.jugs.map Jug.amount := by
  have hinv := graph_it_inv (fun c hm => le_of_lt (hc c hm)) h
  intro i j si sj hi hj hij
  have hd := hinv.distinct i j si sj hi hj hij
  refine ⟨hd, fun hamt => ?_⟩
  have hsim : si ∈ g.nodes := List.mem_iff_getElem?.mpr ⟨i, hi⟩
  have hsjm : sj ∈ g.nodes := List.mem_iff_getElem?.mpr ⟨j, hj⟩
  have hcapeq : si.jugs.map Jug.capacity = sj.jugs.map Jug.capacity :=
    (hinv.wf si hsim).1.trans (hinv.wf sj hsjm).1.symm
  have htrue := (is_same_iff_amounts si.jugs sj.jugs hcapeq).mpr hamt
  rw [hd] at htrue
  cases htrue

/-- Witness for C6: the dedup property applied to the finished `[3, 5]`,
target 4 run at the root (index 0) and its first child `3/3, 5/0` (index 1). -/
theorem C6_witness :
    is_same (JugsState.jugs ⟨[⟨3, 0⟩, ⟨5, 0⟩], false, none⟩)
        (JugsState.jugs ⟨[⟨3, 3⟩, ⟨5, 0⟩], false, some 0⟩) = false ∧
      (JugsState.jugs ⟨[⟨3, 0⟩, ⟨5, 0⟩], false, none⟩).map Jug.amount ≠
        (JugsState.jugs ⟨[⟨3, 3⟩, ⟨5, 0⟩], false, some 0⟩).map Jug.amount :=
  C6_no_duplicate_states [3, 5] 4 20
    ((graph_it (JugsGraph.mk_graph [3, 5] 4) 20).getD (JugsGraph.mk_graph [3, 5] 4))
    (by decide) rfl 0 1 ⟨[⟨3, 0⟩, ⟨5, 0⟩], false, none⟩ ⟨[⟨3, 3⟩, ⟨5, 0⟩], false, some 0⟩
    rfl rfl (by decide)

/-! ## C7: termination — the deduplicated state space is finite -/

/-- The finite set of legal amount vectors for the given capacities. -/
def vec_finset : List Int → Finset (List Int)
  | [] => {[]}
  | c :: cs => Finset.image₂ List.cons (Finset.Icc 0 c) (vec_finset cs)

/-- The number of legal amount vectors, which bounds the arena size. -/
def state_bound (caps : List Int) : Nat := (vec_finset caps).card

/-- The amount vector of a well-formed jug list is a legal vector. -/
lemma mem_vec_finset {caps : List Int} {js : List Jug} (h : jugs_wf caps js) :
    js.map Jug.amount ∈ vec_finset caps := by
  induction js generalizing caps with
  | nil =>
    have hnil : caps = [] := h.1.symm
    subst hnil
    show ([] : List Int) ∈ ({[]} : Finset (List Int))
    exact Finset.mem_singleton_self _
  | cons j js ih =>
    obtain ⟨hcap, hrange⟩ := h
    cases caps with
    | nil => simp at hcap
    | cons c cs =>
      simp only [List.map_cons, List.cons.injEq] at hcap
      show j.amount :: js.map Jug.amount ∈
        Finset.image₂ List.cons (Finset.Icc 0 c) (vec_finset cs)
      refine Finset.mem_image₂_of_mem ?_
        (ih ⟨hcap.2, fun x hx => hrange x (List.mem_cons_of_mem _ hx)⟩)
      rw [Finset.mem_Icc]
      obtain ⟨h0, hle⟩ := hrange j (List.mem_cons_self _ _)
      exact ⟨h0, hcap.1 ▸ hle⟩

/-- Distinct states have distinct amount vectors, which live in a finite set,
so the arena never exceeds `state_bound`. -/
lemma inv_length_le {caps : List Int} {nodes : List JugsState}
    (hinv : GraphInv caps nodes) : nodes.length ≤ state_bound caps := by
  classical
  have hnodup : (nodes.map (fun st => st.jugs.map Jug.amount)).Nodup := by
    unfold List.Nodup
    rw [List.pairwise_iff_getElem]
    intro i j hi hj hij
    rw [List.length_map] at hi hj
    rw [List.getElem_map, List.getElem_map]
    intro heq
    have hio : nodes[i]? = some nodes[i] := List.getElem?_eq_getElem hi
    have hjo : nodes[j]? = some nodes[j] := List.getElem?_eq_getElem hj
    have hd := hinv.distinct i j _ _ hio hjo (Nat.ne_of_lt hij)
    have hcapeq : (nodes[i]).jugs.map Jug.capacity = (nodes[j]).jugs.map Jug.capacity :=
      ((hinv.wf _ (List.mem_iff_getElem?.mpr ⟨i, hio⟩)).1.trans
        (hinv.wf _ (List.mem_iff_getElem?.mpr ⟨j, hjo⟩)).1.symm)
    have htrue := (is_same_iff_amounts _ _ hcapeq).mpr heq
    rw [hd] at htrue
    cases htrue
  have hsub : (nodes.map (fun st => st.jugs.map Jug.amount)).toFinset ⊆ vec_finset caps := by
    intro x hx
    rw [List.mem_toFinset, List.mem_map] at hx
    obtain ⟨st, hst, rfl⟩ := hx
    exact mem_vec_finset (hinv.wf st hst)
  have hcard := Finset.card_le_card hsub
  rw [List.toFinset_card_of_nodup hnodup, List.length_map] at hcard
  exact hcard

/-- Membership in a node's child list, unfolded. -/
lemma children_of_mem {nodes : List JugsState} {cur c : Nat}
    (h : c ∈ children_of nodes cur) :
    c < nodes.length ∧ ∃ n, nodes[c]? = some n ∧ n.parent = some cur := by
  unfold children_of at h
  rw [List.mem_filter, List.mem_range] at h
  obtain ⟨hlt, hp⟩ := h
  refine ⟨hlt, ?_⟩
  cases hn : nodes[c]? with
  | none =>
    simp only [hn] at hp
    exact (Bool.false_ne_true hp).elim
  | some n =>
    simp only [hn] at hp
    exact ⟨n, rfl, by simpa using hp⟩

/-- Children sit strictly after their parent in attachment order. -/
lemma children_of_gt {caps : List Int} {nodes : List JugsState} {cur c : Nat}
    (hinv : GraphInv caps nodes) (h : c ∈ children_of nodes cur) : cur < c := by
  obtain ⟨hlt, n, hn, hp⟩ := children_of_mem h
  cases Nat.eq_zero_or_pos c with
  | inl h0 =>
    subst h0
    obtain ⟨st0, rest, hr, hpar, _⟩ := hinv.root
    rw [hr, List.getElem?_cons_zero] at hn
    cases hn
    rw [hpar] at hp
    cases hp
  | inr hpos =>
    obtain ⟨p, pst, h1, h2, _, _⟩ := hinv.parents c n hn hpos
    rw [hp] at h1
    cases h1
    exact h2

/-- The child loop completes when each step call completes, preserves the
invariant, and only appends. -/
lemma run_children_go_succeeds {caps : List Int} (cb : Nat)
    (step : List JugsState → Nat → Option (List JugsState))
    (hpres : ∀ ns c ns2 cst, GraphInv caps ns → ns[c]? = some cst → cst.goal_flag = false →
      step ns c = some ns2 → GraphInv caps ns2)
    (hsucc : ∀ ns c cst, GraphInv caps ns → ns[c]? = some cst → cst.goal_flag = false →
      cb < c → (step ns c).isSome = true) :
    ∀ (cs : List Nat) (nodes : List JugsState), GraphInv caps nodes →
      (∀ c ∈ cs, cb < c) → (run_children_go step nodes cs).isSome = true := by
  intro cs
  induction cs with
  | nil =>
    intro nodes _ _
    rw [run_children_go]
    rfl
  | cons c cs ih =>
    intro nodes hinv hcs
    rw [run_children_go]
    cases hn : nodes[c]? with
    | none => simp only [hn, Option.isSome_some]
    | some st =>
      by_cases hf : st.goal_flag = true
      · simp only [hn, hf, if_true, Option.isSome_some]
      · have hflag := Bool.eq_false_iff.mpr hf
        have hss := hsucc nodes c st hinv hn hflag (hcs c (List.mem_cons_self _ _))
        obtain ⟨ns2, hs2⟩ := Option.isSome_iff_exists.mp hss
        simp only [hn, hflag, if_false, hs2]
        exact ih ns2 (hpres nodes c ns2 st hinv hn hflag hs2)
          (fun x hx => hcs x (List.mem_cons_of_mem _ hx))

/-- `_helper` completes whenever its fuel is at least `state_bound caps -
cur`: children have strictly larger indices, indices stay below the bound,
and the fuel drops by one per nesting level. -/
lemma graph_helper_succeeds {caps : List Int} (goal : Int) (hc : ∀ c ∈ caps, 0 ≤ c) :
    ∀ (fuel : Nat) (nodes : List JugsState) (cur : Nat),
      GraphInv caps nodes → cur < nodes.length →
      (∀ cst, nodes[cur]? = some cst → cst.goal_flag = false) →
      state_bound caps - cur ≤ fuel →
      (graph_helper goal fuel nodes cur).isSome = true := by
  intro fuel
  induction fuel with
  | zero =>
    intro nodes cur hinv hcur _ hfuel
    exfalso
    have := inv_length_le hinv
    omega
  | succ fuel ih =>
    intro nodes cur hinv hcur hflag hfuel
    rw [graph_helper]
    cases hn : nodes[cur]? with
    | none => simp only [hn, Option.isSome_some]
    | some st =>
      by_cases hr : (process_candidates goal cur nodes (gen_moves st.jugs)).2 = true
      · simp only [hn, hr, if_true, Option.isSome_some]
      · have hrf := Bool.eq_false_iff.mpr hr
        simp only [hn, hrf, if_false]
        have hstm : st ∈ nodes := List.mem_iff_getElem?.mpr ⟨cur, hn⟩
        have hinv2 := process_candidates_inv goal cur
          (gen_moves st.jugs) nodes hinv (gen_moves_wf hc (hinv.wf st hstm))
          hflag ⟨st, hn⟩
        refine run_children_go_succeeds cur (graph_helper goal fuel) ?_ ?_ _ _ hinv2 ?_
        · intro ns c ns2 cst hi hn2 hfc hs
          exact graph_helper_inv goal hc fuel ns c ns2 hi (fun cst2 h2 => by
            rw [hn2] at h2
            cases h2
            exact hfc) hs
        · intro ns c cst hi hn2 hfc hgt
          have hlt : c < ns.length := by
            obtain ⟨hh, _⟩ := List.getElem?_eq_some.mp hn2
            exact hh
          refine ih ns c hi hlt (fun cst2 h2 => by
            rw [hn2] at h2
            cases h2
            exact hfc) ?_
          have := inv_length_le hi
          omega
        · intro c hcm
          exact children_of_gt hinv2 hcm

/-- CLAIM C7: for every list of positive capacities and every target,
expansion terminates — there is enough fuel for `graph_it` to complete (by
exhaustion or early halt) and deliver a graph in the built (`graphed`)
phase. -/
theorem C7_graph_it_terminates (caps : List Int) (goal : Int)
    (hc : ∀ c ∈ caps, 0 < c) :
    ∃ (fuel : Nat) (g : JugsGraph),
      graph_it (JugsGraph.mk_graph caps goal) fuel = some g ∧ g.graphed = true := by
  have hc0 : ∀ c ∈ caps, 0 ≤ c := fun c hm => le_of_lt (hc c hm)
  have hinv := mk_graph_inv caps goal hc0
  have hs := graph_helper_succeeds (JugsGraph.mk_graph caps goal).goal hc0
    (state_bound caps) (JugsGraph.mk_graph caps goal).nodes 0 hinv
    (by show 0 < 1; omega)
    (fun cst h2 => by
      rw [show (JugsGraph.mk_graph caps goal).nodes[0]? =
        some ⟨caps.map (fun c => ⟨c, 0⟩), false, none⟩ from rfl] at h2
      cases h2
      rfl)
    (by omega)
  obtain ⟨ns, hns⟩ := Option.isSome_iff_exists.mp hs
  refine ⟨state_bound caps, { nodes := ns, goal := goal, graphed := true }, ?_, rfl⟩
  unfold graph_it
  rw [hns]
  rfl

/-- Witness for C7: termination for the run with capacities `[3, 5]` and
target `4`. -/
theorem C7_witness :
    ∃ (fuel : Nat) (g : JugsGraph),
      graph_it (JugsGraph.mk_graph [3, 5] 4) fuel = some g ∧ g.graphed = true :=
  C7_graph_it_terminates [3, 5] 4 (by decide)

/-! ## C8: machinery for the solution-extraction pass -/

/-- The goal flag of the node at index `x` (false when out of range). -/
def flag_of (nodes : List JugsState) (x : Nat) : Bool :=
  match nodes[x]? with
  | some st => st.goal_flag
  | none => false

/-- `Reaches nodes i x`: node `i` is `x` itself or an ancestor of `x` along
the parent back-references. -/
inductive Reaches (nodes : List JugsState) (i : Nat) : Nat → Prop
  | refl : Reaches nodes i i
  | step {p x : Nat} {st : JugsState} : nodes[x]? = some st → st.parent = some p →
      Reaches nodes i p → Reaches nodes i x

/-- Parents come strictly earlier in attachment order. -/
lemma parent_lt {caps : List Int} {nodes : List JugsState} (hinv : GraphInv caps nodes)
    {x p : Nat} {st : JugsState} (hx : nodes[x]? = some st) (hp : st.parent = some p) :
    p < x := by
  cases Nat.eq_zero_or_pos x with
  | inl h0 =>
    subst h0
    obtain ⟨st0, rest, hr, hpar, _⟩ := hinv.root
    rw [hr, List.getElem?_cons_zero] at hx
    cases hx
    rw [hpar] at hp
    cases hp
  | inr hpos =>
    obtain ⟨p2, pst, h1, h2, _, _⟩ := hinv.parents x st hx hpos
    rw [hp] at h1
    cases h1
    exact h2

/-- Ancestors come no later than their descendants. -/
lemma reaches_le {caps : List Int} {nodes : List JugsState} (hinv : GraphInv caps nodes)
    {i x : Nat} (h : Reaches nodes i x) : i ≤ x := by
  induction h with
  | refl => exact le_refl _
  | step hx hp _ ih => exact le_trans ih (le_of_lt (parent_lt hinv hx hp))

/-- `Reaches` composes. -/
lemma reaches_trans {nodes : List JugsState} {i j k : Nat}
    (h1 : Reaches nodes i j) (h2 : Reaches nodes j k) : Reaches nodes i k := by
  induction h2 with
  | refl => exact h1
  | step hx hp _ ih => exact Reaches.step hx hp ih

/-- Every attached node is reached from the root. -/
lemma reaches_root {caps : List Int} {nodes : List JugsState} (hinv : GraphInv caps nodes) :
    ∀ x, x < nodes.length → Reaches nodes 0 x := by
  intro x
  induction x using Nat.strong_induction_on with
  | _ x ih =>
    intro hx
    cases Nat.eq_zero_or_pos x with
    | inl h0 =>
      subst h0
      exact Reaches.refl
    | inr hpos =>
      cases hn : nodes[x]? with
      | none =>
        rw [List.getElem?_eq_none_iff] at hn
        omega
      | some st =>
        obtain ⟨p, pst, hp, hplt, _, _⟩ := hinv.parents x st hn hpos
        exact Reaches.step hn hp (ih p hplt (lt_trans hplt hx))

/-- Constructing membership in a child list. -/
lemma mem_children_of {nodes : List JugsState} {cur c : Nat} {n : JugsState}
    (hn : nodes[c]? = some n) (hp : n.parent = some cur) : c ∈ children_of nodes cur := by
  unfold children_of
  rw [List.mem_filter, List.mem_range]
  constructor
  · obtain ⟨hh, _⟩ := List.getElem?_eq_some.mp hn
    exact hh
  · simp [hn, hp]

/-- When `x ≠ i` is reached from `i`, there is a unique child of `i` through
which `x` is reached. -/
lemma reaches_child {caps : List Int} {nodes : List JugsState} (hinv : GraphInv caps nodes)
    {i x : Nat} (h : Reaches nodes i x) : x ≠ i →
    ∃ c, (c ∈ children_of nodes i ∧ Reaches nodes c x) ∧
      ∀ c2, c2 ∈ children_of nodes i → Reaches nodes c2 x → c2 = c := by
  induction h with
  | refl => intro hne; exact absurd rfl hne
  | step hx hp hr ih =>
    rename_i p x2 st
    intro _
    by_cases hpi : p = i
    · subst hpi
      refine ⟨x2, ⟨mem_children_of hx hp, Reaches.refl⟩, ?_⟩
      intro c2 hc2m hc2r
      cases hc2r with
      | refl => rfl
      | step hx2 hp2 hr2 =>
        rw [hx] at hx2
        cases hx2
        rw [hp] at hp2
        cases hp2
        have hle := reaches_le hinv hr2
        have hgt := children_of_gt hinv hc2m
        omega
    · obtain ⟨c, ⟨hcm, hcr⟩, huniq⟩ := ih hpi
      refine ⟨c, ⟨hcm, Reaches.step hx hp hcr⟩, ?_⟩
      intro c2 hc2m hc2r
      cases hc2r with
      | refl =>
        obtain ⟨_, n, hn2, hp2⟩ := children_of_mem hc2m
        rw [hx] at hn2
        cases hn2
        rw [hp] at hp2
        exact absurd (Option.some.inj hp2) hpi
      | step hx2 hp2 hr2 =>
        rw [hx] at hx2
        cases hx2
        rw [hp] at hp2
        cases hp2
        exact huniq c2 hc2m hr2

/-- A state with a child is never flagged (goal states are never expanded,
and a frame aborts before its child loop when it flags a candidate). -/
lemma no_child_of_flagged {caps : List Int} {nodes : List JugsState}
    (hinv : GraphInv caps nodes) {i c : Nat} (hc : c ∈ children_of nodes i)
    {st : JugsState} (hi : nodes[i]? = some st) : st.goal_flag = false := by
  obtain ⟨_, n, hn, hp⟩ := children_of_mem hc
  have hpos : 0 < c := lt_of_le_of_lt (Nat.zero_le i) (children_of_gt hinv hc)
  obtain ⟨p, pst, hpar, _, hpn, hpf⟩ := hinv.parents c n hn hpos
  rw [hp] at hpar
  cases hpar
  rw [hi] at hpn
  cases hpn
  exact hpf

/-- Counting over a `flatMap` is summing the counts. -/
lemma count_flatMap_eq (cs : List Nat) (f : Nat → List Nat) (x : Nat) :
    (cs.flatMap f).count x = (cs.map (fun c => (f c).count x)).sum := by
  show (List.flatten (cs.map f)).count x = _
  rw [List.count_flatten, List.map_map]
  rfl

/-- A sum of zeros is zero. -/
lemma sum_map_zero {cs : List Nat} (f : Nat → Nat) (hf : ∀ c ∈ cs, f c = 0) :
    (cs.map f).sum = 0 := by
  induction cs with
  | nil => rfl
  | cons c cs ih =>
    rw [List.map_cons, List.sum_cons, hf c (List.mem_cons_self _ _),
      ih (fun c2 h2 => hf c2 (List.mem_cons_of_mem _ h2))]

/-- A sum of indicators of a unique member is one. -/
lemma sum_map_eq_one {cs : List Nat} {c0 : Nat} (hnd : cs.Nodup) (hc0 : c0 ∈ cs)
    (f : Nat → Nat) (hf : ∀ c ∈ cs, f c = if c = c0 then 1 else 0) :
    (cs.map f).sum = 1 := by
  induction cs with
  | nil => cases hc0
  | cons c cs ih =>
    rw [List.map_cons, List.sum_cons]
    rcases List.mem_cons.mp hc0 with rfl | hmem
    · rw [hf c0 (List.mem_cons_self _ _), if_pos rfl]
      have hzero : (cs.map f).sum = 0 := sum_map_zero f (fun c2 h2 => by
        rw [hf c2 (List.mem_cons_of_mem _ h2),
          if_neg (fun (heq : c2 = c0) => (List.nodup_cons.mp hnd).1 (heq ▸ h2))])
      rw [hzero]
    · have hne : c ≠ c0 := by
        intro heq
        subst heq
        exact (List.nodup_cons.mp hnd).1 hmem
      rw [hf c (List.mem_cons_self _ _), if_neg hne,
        ih (List.nodup_cons.mp hnd).2 hmem
          (fun c2 h2 => hf c2 (List.mem_cons_of_mem _ h2))]

/-- Child lists never repeat an index. -/
lemma children_of_nodup (nodes : List JugsState) (cur : Nat) :
    (children_of nodes cur).Nodup := by
  unfold children_of
  exact (List.nodup_range _).filter _

/-- How often the traversal of `print_solutions` reports index `x` below
index `i`: exactly once when `x` is a flagged node in `i`'s subtree, never
otherwise. -/
lemma traverse_count {caps : List Int} {nodes : List JugsState} (hinv : GraphInv caps nodes) :
    ∀ (fuel i x : Nat), i < nodes.length → nodes.length ≤ fuel + i →
      ((flag_of nodes x = true ∧ Reaches nodes i x) →
        (traverse_states nodes fuel i).count x = 1) ∧
      (¬(flag_of nodes x = true ∧ Reaches nodes i x) →
        (traverse_states nodes fuel i).count x = 0) := by
  intro fuel
  induction fuel with
  | zero =>
    intro i x hi hle
    exfalso
    omega
  | succ fuel ih =>
    intro i x hi hle
    rw [traverse_states]
    cases hn : nodes[i]? with
    | none =>
      rw [List.getElem?_eq_none_iff] at hn
      exfalso
      omega
    | some st =>
      by_cases hf : st.goal_flag = true
      · simp only [hn, hf, if_true]
        constructor
        · rintro ⟨hfx, hrx⟩
          have hxi : x = i := by
            by_contra hne
            obtain ⟨c, ⟨hcm, _⟩, _⟩ := reaches_child hinv hrx hne
            have hnf := no_child_of_flagged hinv hcm hn
            rw [hnf] at hf
            exact Bool.false_ne_true hf
          subst hxi
          exact List.count_singleton_self x
        · intro hneg
          by_cases hxi : x = i
          · subst hxi
            exact absurd ⟨by simp [flag_of, hn, hf], Reaches.refl⟩ hneg
          · have hbeq : (i == x) = false := beq_eq_false_iff_ne.mpr (Ne.symm hxi)
            rw [List.count_singleton, hbeq]
            rfl
      · have hff : st.goal_flag = false := Bool.eq_false_iff.mpr hf
        simp only [hn, hff, Bool.false_eq_true, if_false]
        rw [count_flatMap_eq]
        constructor
        · rintro ⟨hfx, hrx⟩
          have hxi : x ≠ i := by
            intro heq
            subst heq
            have hz : flag_of nodes x = false := by simp [flag_of, hn, hff]
            rw [hz] at hfx
            exact Bool.false_ne_true hfx
          obtain ⟨c0, ⟨hc0m, hc0r⟩, huniq⟩ := reaches_child hinv hrx hxi
          apply sum_map_eq_one (children_of_nodup nodes i) hc0m
          intro c hcm
          obtain ⟨hclen, _⟩ := children_of_mem hcm
          by_cases hcc : c = c0
          · subst hcc
            rw [if_pos rfl]
            exact (ih c x hclen (by
              have := children_of_gt hinv hcm
              omega)).1 ⟨hfx, hc0r⟩
          · rw [if_neg hcc]
            refine (ih c x hclen (by
              have := children_of_gt hinv hcm
              omega)).2 ?_
            rintro ⟨_, hcr⟩
            exact hcc (huniq c hcm hcr)
        · intro hneg
          apply sum_map_zero
          intro c hcm
          obtain ⟨hclen, n, hnc, hpc⟩ := children_of_mem hcm
          refine (ih c x hclen (by
            have := children_of_gt hinv hcm
            omega)).2 ?_
          rintro ⟨hfx, hcr⟩
          have hic : Reaches nodes i c := Reaches.step hnc hpc Reaches.refl
          exact hneg ⟨hfx, reaches_trans hic hcr⟩

/-- A flagged index is a valid index. -/
lemma flag_of_lt {nodes : List JugsState} {x : Nat} (h : flag_of nodes x = true) :
    x < nodes.length := by
  by_contra hge
  have hz : nodes[x]? = none := List.getElem?_eq_none (Nat.le_of_not_lt hge)
  simp only [flag_of, hz] at h
  exact Bool.false_ne_true h

/-- The full traversal reports each index once when flagged, never
otherwise. -/
lemma traverse_root_count {caps : List Int} {nodes : List JugsState}
    (hinv : GraphInv caps nodes) (hlen : 0 < nodes.length) (x : Nat) :
    (traverse_states nodes nodes.length 0).count x =
      if flag_of nodes x = true then 1 else 0 := by
  by_cases hfx : flag_of nodes x = true
  · rw [if_pos hfx]
    exact (traverse_count hinv nodes.length 0 x hlen (by omega)).1
      ⟨hfx, reaches_root hinv x (flag_of_lt hfx)⟩
  · rw [if_neg hfx]
    exact (traverse_count hinv nodes.length 0 x hlen (by omega)).2 (fun hc => hfx hc.1)

/-- The flagged indices of the arena, as a filtered range, have the same
counts. -/
lemma filter_range_count (nodes : List JugsState) (x : Nat) :
    ((List.range nodes.length).filter (fun y => flag_of nodes y)).count x =
      if flag_of nodes x = true then 1 else 0 := by
  by_cases hfx : flag_of nodes x = true
  · rw [if_pos hfx]
    apply List.count_eq_one_of_mem ((List.nodup_range _).filter _)
    rw [List.mem_filter, List.mem_range]
    exact ⟨flag_of_lt hfx, hfx⟩
  · rw [if_neg hfx]
    apply List.count_eq_zero_of_not_mem
    rw [List.mem_filter]
    rintro ⟨_, hx⟩
    exact hfx hx

/-- The traversal output is a permutation of the flagged indices. -/
lemma traverse_root_perm {caps : List Int} {nodes : List JugsState}
    (hinv : GraphInv caps nodes) (hlen : 0 < nodes.length) :
    (traverse_states nodes nodes.length 0).Perm
      ((List.range nodes.length).filter (fun y => flag_of nodes y)) := by
  rw [List.perm_iff_count]
  intro x
  rw [traverse_root_count hinv hlen x, filter_range_count nodes x]

/-- Counting flagged indices equals counting flagged states. -/
lemma countP_range_flag (nodes : List JugsState) :
    (List.range nodes.length).countP (fun y => flag_of nodes y) =
      nodes.countP (fun st => st.goal_flag) := by
  induction nodes with
  | nil => rfl
  | cons st rest ih =>
    have hcomp : ((fun y => flag_of (st :: rest) y) ∘ Nat.succ) =
        (fun y => flag_of rest y) := by
      funext y
      show flag_of (st :: rest) (y + 1) = flag_of rest y
      simp [flag_of]
    have h0 : flag_of (st :: rest) 0 = st.goal_flag := by simp [flag_of]
    rw [List.length_cons, List.range_succ_eq_map, List.countP_cons, List.countP_map,
      hcomp, ih, List.countP_cons, h0]

/-- The parent chain of `x` has at most `x` links. -/
lemma anc_length_le {caps : List Int} {nodes : List JugsState}
    (hinv : GraphInv caps nodes) :
    ∀ (fuel x : Nat), (anc nodes fuel x).length ≤ x := by
  intro fuel
  induction fuel with
  | zero =>
    intro x
    rw [anc]
    exact Nat.zero_le x
  | succ fuel ih =>
    intro x
    rw [anc]
    cases hn : nodes[x]? with
    | none =>
      simp only [hn]
      exact Nat.zero_le x
    | some st =>
      cases hp : st.parent with
      | none =>
        simp only [hn, hp]
        exact Nat.zero_le x
      | some p =>
        simp only [hn, hp]
        rw [List.length_cons]
        have hplt := parent_lt hinv hn hp
        have := ih p
        omega

/-- The recorded step count of a solution is bounded by the index plus one. -/
lemma mk_solution_steps_le {caps : List Int} {nodes : List JugsState}
    (hinv : GraphInv caps nodes) (x : Nat) :
    (mk_solution nodes x).steps ≤ x + 1 := by
  show (get_state_path nodes x).length ≤ x + 1
  unfold get_state_path
  rw [List.length_map, List.length_reverse, List.length_cons]
  have := anc_length_le hinv nodes.length x
  omega

/-- A finished `graph_it` run: the built flag is set, the goal is kept, and
the nodes are the helper's output. -/
lemma graph_it_eq {g0 g : JugsGraph} {fuel : Nat} (h : graph_it g0 fuel = some g) :
    g.graphed = true ∧ g.goal = g0.goal ∧
      graph_helper g0.goal fuel g0.nodes 0 = some g.nodes := by
  unfold graph_it at h
  cases hg : graph_helper g0.goal fuel g0.nodes 0 with
  | none => rw [hg] at h; cases h
  | some ns =>
    rw [hg] at h
    cases h
    exact ⟨rfl, rfl, rfl⟩

/-- The best-solution scan, characterised: either no entry beats the running
minimum and the accumulator survives, or the result is the first entry
attaining the minimum. -/
lemma find_min_aux_spec :
    ∀ (sols : List Solution) (m : Nat) (b : Option Solution),
      (find_min_aux m b sols = b ∧ ∀ t ∈ sols, m ≤ t.steps) ∨
      (∃ (k : Nat) (sk : Solution), sols[k]? = some sk ∧
        find_min_aux m b sols = some sk ∧ sk.steps < m ∧
        (∀ t ∈ sols, sk.steps ≤ t.steps) ∧
        ∀ (j : Nat) (sj : Solution), j < k → sols[j]? = some sj →
          sk.steps < sj.steps) := by
  intro sols
  induction sols with
  | nil => intro m b; exact Or.inl ⟨rfl, by intro t ht; cases ht⟩
  | cons s rest ih =>
    intro m b
    by_cases hs : s.steps < m
    · rw [show find_min_aux m b (s :: rest) = find_min_aux s.steps (some s) rest by
        rw [find_min_aux, if_pos hs]]
      rcases ih s.steps (some s) with ⟨heq, hall⟩ | ⟨k, sk, hk, heq, hlt, hle, hbefore⟩
      · refine Or.inr ⟨0, s, List.getElem?_cons_zero, heq, hs, ?_, ?_⟩
        · intro t ht
          rcases List.mem_cons.mp ht with rfl | hmem
          · exact le_refl _
          · exact hall t hmem
        · intro j sj hj _
          omega
      · refine Or.inr ⟨k + 1, sk, by rw [List.getElem?_cons_succ]; exact hk, heq,
          lt_trans hlt hs, ?_, ?_⟩
        · intro t ht
          rcases List.mem_cons.mp ht with rfl | hmem
          · exact le_of_lt hlt
          · exact hle t hmem
        · intro j sj hj hjget
          cases j with
          | zero =>
            rw [List.getElem?_cons_zero] at hjget
            cases hjget
            exact hlt
          | succ j2 =>
            rw [List.getElem?_cons_succ] at hjget
            exact hbefore j2 sj (by omega) hjget
    · rw [show find_min_aux m b (s :: rest) = find_min_aux m b rest by
        rw [find_min_aux, if_neg hs]]
      rcases ih m b with ⟨heq, hall⟩ | ⟨k, sk, hk, heq, hlt, hle, hbefore⟩
      · refine Or.inl ⟨heq, ?_⟩
        intro t ht
        rcases List.mem_cons.mp ht with rfl | hmem
        · omega
        · exact hall t hmem
      · refine Or.inr ⟨k + 1, sk, by rw [List.getElem?_cons_succ]; exact hk, heq, hlt, ?_, ?_⟩
        · intro t ht
          rcases List.mem_cons.mp ht with rfl | hmem
          · omega
          · exact hle t hmem
        · intro j sj hj hjget
          cases j with
          | zero =>
            rw [List.getElem?_cons_zero] at hjget
            cases hjget
            omega
          | succ j2 =>
            rw [List.getElem?_cons_succ] at hjget
            exact hbefore j2 sj (by omega) hjget

/-- For a nonempty solution list whose step counts stay below the sentinel,
the scan returns the first solution attaining the minimal step count. -/
lemma find_min_spec (sols : List Solution) (hne : sols ≠ [])
    (hb : ∀ t ∈ sols, t.steps < 9999999999) :
    ∃ (k : Nat) (sk : Solution), sols[k]? = some sk ∧ find_min sols = some sk ∧
      (∀ t ∈ sols, sk.steps ≤ t.steps) ∧
      ∀ (j : Nat) (sj : Solution), j < k → sols[j]? = some sj →
        sk.steps < sj.steps := by
  rcases find_min_aux_spec sols 9999999999 none with ⟨_, hall⟩ | ⟨k, sk, h1, h2, _, h4, h5⟩
  · exfalso
    cases sols with
    | nil => exact hne rfl
    | cons s rest =>
      have h1 := hall s (List.mem_cons_self _ _)
      have h2 := hb s (List.mem_cons_self _ _)
      omega
  · exact ⟨k, sk, h1, h2, h4, h5⟩

/-- CLAIM C8: after expansion completes, extraction reports `no_solution`
exactly when the graph holds no goal state (equivalently, no root-to-goal
path: every attached state is reachable from the root); otherwise it reports
one solution per goal state — each goal state's root path among them — and
then the best one: the first reported solution attaining the minimal step
count.  The arena-size bound keeps every path length below the source's
`9999999999` sentinel. -/
theorem C8_solution_reporting (caps : List Int) (goal : Int) (fuel : Nat) (g : JugsGraph)
    (hc : ∀ c ∈ caps, 0 < c)
    (h : graph_it (JugsGraph.mk_graph caps goal) fuel = some g)
    (hsz : g.nodes.length < 9999999999) :
    (print_solutions g = Report.no_solution ↔ ∀ st ∈ g.nodes, st.goal_flag = false) ∧
    (∀ sols best, print_solutions g = Report.solutions sols best →
      sols.length = g.nodes.countP (fun st => st.goal_flag) ∧
      (∀ (x : Nat) (st : JugsState), g.nodes[x]? = some st → st.goal_flag = true →
        mk_solution g.nodes x ∈ sols) ∧
      (∃ b, best = some b ∧ b ∈ sols ∧ (∀ s ∈ sols, b.steps ≤ s.steps) ∧
        ∃ k, sols[k]? = some b ∧
          ∀ (j : Nat) (sj : Solution), j < k → sols[j]? = some sj →
            b.steps < sj.steps)) := by
  have hinv := graph_it_inv (fun c hm => le_of_lt (hc c hm)) h
  obtain ⟨hgr, _, _⟩ := graph_it_eq h
  have hlen : 0 < g.nodes.length := by
    obtain ⟨st, rest, hr, _, _⟩ := hinv.root
    rw [hr]
    simp
  have hperm := traverse_root_perm hinv hlen
  set idxs := traverse_states g.nodes g.nodes.length 0 with hidxs
  set sols0 := idxs.map (mk_solution g.nodes) with hsols0
  have hlen_eq : sols0.length = g.nodes.countP (fun st => st.goal_flag) := by
    rw [hsols0, List.length_map, hperm.length_eq, ← List.countP_eq_length_filter,
      countP_range_flag]
  have hprint : print_solutions g = if sols0.length = 0 then Report.no_solution
      else Report.solutions sols0 (find_min sols0) := by
    simp only [print_solutions, hgr, if_true]
  constructor
  · constructor
    · intro hns st hst
      by_cases hl0 : sols0.length = 0
      · rw [hlen_eq] at hl0
        exact Bool.eq_false_iff.mpr (List.countP_eq_zero.mp hl0 st hst)
      · rw [hprint, if_neg hl0] at hns
        cases hns
    · intro hall
      have hl0 : sols0.length = 0 := by
        rw [hlen_eq]
        exact List.countP_eq_zero.mpr (fun st hst => by
          rw [hall st hst]
          exact Bool.false_ne_true)
      rw [hprint, if_pos hl0]
  · intro sols best hsb
    by_cases hl0 : sols0.length = 0
    · rw [hprint, if_pos hl0] at hsb
      cases hsb
    · rw [hprint, if_neg hl0] at hsb
      injection hsb with hs1 hs2
      subst hs1
      subst hs2
      refine ⟨hlen_eq, ?_, ?_⟩
      · intro x st hx hflag
        have hfx : flag_of g.nodes x = true := by simp [flag_of, hx, hflag]
        have hcount := traverse_root_count hinv hlen x
        rw [if_pos hfx] at hcount
        have hmem : x ∈ idxs := by
          apply List.count_pos_iff.mp
          rw [hidxs]
          omega
        exact List.mem_map_of_mem _ hmem
      · have hne : sols0 ≠ [] := by
          intro hemp
          rw [hemp] at hl0
          exact hl0 rfl
        have hb : ∀ t ∈ sols0, t.steps < 9999999999 := by
          intro t ht
          rw [hsols0, List.mem_map] at ht
          obtain ⟨x, hxmem, rfl⟩ := ht
          have hfx : flag_of g.nodes x = true := by
            by_contra hfx
            have hcount := traverse_root_count hinv hlen x
            rw [if_neg hfx] at hcount
            have hpos := List.count_pos_iff.mpr hxmem
            rw [hidxs] at hpos
            omega
          have hxlt := flag_of_lt hfx
          have := mk_solution_steps_le hinv x
          omega
        obtain ⟨k, sk, hk, hfm, hle, hfirst⟩ := find_min_spec sols0 hne hb
        exact ⟨sk, by rw [hfm], List.mem_iff_getElem?.mpr ⟨k, hk⟩, hle, k, hk, hfirst⟩

/-- Witness for C8: the no-solution characterisation at the finished
`[3, 5]`, target 4 run. -/
theorem C8_witness :
    print_solutions ((graph_it (JugsGraph.mk_graph [3, 5] 4) 20).getD
        (JugsGraph.mk_graph [3, 5] 4)) = Report.no_solution ↔
      ∀ st ∈ ((graph_it (JugsGraph.mk_graph [3, 5] 4) 20).getD
        (JugsGraph.mk_graph [3, 5] 4)).nodes, st.goal_flag = false :=
  (C8_solution_reporting [3, 5] 4 20
    ((graph_it (JugsGraph.mk_graph [3, 5] 4) 20).getD (JugsGraph.mk_graph [3, 5] 4))
    (by decide) rfl (by decide)).1

/-! ## C9: degenerate runs finish and report no solution -/

/-- The child loop preserves any predicate the step function preserves below
unflagged attached nodes. -/
lemma run_children_go_pres (P : List JugsState → Prop)
    (step : List JugsState → Nat → Option (List JugsState))
    (hstep : ∀ ns c ns2 cst, P ns → ns[c]? = some cst → cst.goal_flag = false →
      step ns c = some ns2 → P ns2) :
    ∀ (cs : List Nat) (nodes ns2 : List JugsState), P nodes →
      run_children_go step nodes cs = some ns2 → P ns2 := by
  intro cs
  induction cs with
  | nil =>
    intro nodes ns2 hp h
    rw [run_children_go] at h
    cases h
    exact hp
  | cons c cs ih =>
    intro nodes ns2 hp h
    rw [run_children_go] at h
    cases hn : nodes[c]? with
    | none =>
      rw [hn] at h
      cases h
      exact hp
    | some st =>
      rw [hn] at h
      by_cases hf : st.goal_flag = true
      · simp only [hf, if_true] at h
        cases h
        exact hp
      · simp only [hf, if_false] at h
        cases hs : step nodes c with
        | none => rw [hs] at h; cases h
        | some nodes2 =>
          rw [hs] at h
          exact ih nodes2 ns2 (hstep nodes c nodes2 st hp hn (Bool.eq_false_iff.mpr hf) hs) h

/-- When no well-formed state can satisfy the goal, the candidate loop never
flags and never aborts. -/
lemma process_candidates_noflag {caps : List Int} {goal : Int} (cur : Nat)
    (hgoal : ∀ js, jugs_wf caps js → has_fill_amount js goal = false) :
    ∀ (cands : List (List Jug)) (nodes : List JugsState),
      (∀ m ∈ cands, jugs_wf caps m) →
      (∀ st ∈ nodes, st.goal_flag = false) →
      (∀ st ∈ (process_candidates goal cur nodes cands).1, st.goal_flag = false) ∧
        (process_candidates goal cur nodes cands).2 = false := by
  intro cands
  induction cands with
  | nil =>
    intro nodes _ hnf
    exact ⟨hnf, rfl⟩
  | cons cand rest ih =>
    intro nodes hcands hnf
    have hg := hgoal cand (hcands cand (List.mem_cons_self _ _))
    rw [process_candidates]
    by_cases he : state_exists nodes cand = true
    · simp only [he, if_true, hg, Bool.false_eq_true, if_false]
      exact ih nodes (fun m hm => hcands m (List.mem_cons_of_mem _ hm)) hnf
    · have hef : state_exists nodes cand = false := Bool.eq_false_iff.mpr he
      simp only [hef, Bool.false_eq_true, if_false, hg]
      refine ih _ (fun m hm => hcands m (List.mem_cons_of_mem _ hm)) ?_
      intro st hst
      rcases List.mem_append.mp hst with hm | hm
      · exact hnf st hm
      · rw [List.mem_singleton] at hm
        subst hm
        rfl

/-- When no well-formed state can satisfy the goal, `_helper` leaves every
goal flag false. -/
lemma graph_helper_noflag {caps : List Int} {goal : Int} (hc : ∀ c ∈ caps, 0 ≤ c)
    (hgoal : ∀ js, jugs_wf caps js → has_fill_amount js goal = false) :
    ∀ (fuel : Nat) (nodes : List JugsState) (cur : Nat) (ns2 : List JugsState),
      GraphInv caps nodes → (∀ st ∈ nodes, st.goal_flag = false) →
      (∀ cst, nodes[cur]? = some cst → cst.goal_flag = false) →
      graph_helper goal fuel nodes cur = some ns2 →
      ∀ st ∈ ns2, st.goal_flag = false := by
  intro fuel
  induction fuel with
  | zero =>
    intro nodes cur ns2 _ _ _ h
    rw [graph_helper] at h
    cases h
  | succ fuel ih =>
    intro nodes cur ns2 hinv hnf hflag h
    rw [graph_helper] at h
    cases hn : nodes[cur]? with
    | none =>
      rw [hn] at h
      cases h
      exact hnf
    | some st =>
      rw [hn] at h
      have hstm : st ∈ nodes := List.mem_iff_getElem?.mpr ⟨cur, hn⟩
      have hpcn := process_candidates_noflag cur hgoal (gen_moves st.jugs) nodes
        (gen_moves_wf hc (hinv.wf st hstm)) hnf
      by_cases hr : (process_candidates goal cur nodes (gen_moves st.jugs)).2 = true
      · rw [hpcn.2] at hr
        exact (Bool.false_ne_true hr).elim
      · have hrf := Bool.eq_false_iff.mpr hr
        simp only [hrf, Bool.false_eq_true, if_false] at h
        have hinv2 := process_candidates_inv goal cur
          (gen_moves st.jugs) nodes hinv (gen_moves_wf hc (hinv.wf st hstm))
          hflag ⟨st, hn⟩
        have hres := run_children_go_pres
          (fun ns => GraphInv caps ns ∧ ∀ st2 ∈ ns, st2.goal_flag = false)
          (graph_helper goal fuel) ?_ _ _ ns2 ⟨hinv2, hpcn.1⟩ h
        · exact hres.2
        · intro ns c ns3 cst hpns hnc hfc hs
          refine ⟨graph_helper_inv goal hc fuel ns c ns3 hpns.1 (fun cst2 h2 => by
              rw [hnc] at h2
              cases h2
              exact hfc) hs, ?_⟩
          exact ih ns c ns3 hpns.1 hpns.2 (fun cst2 h2 => by
            rw [hnc] at h2
            cases h2
            exact hfc) hs

/-- A built graph with no flagged state reports no solution. -/
lemma print_no_solution {caps : List Int} {g : JugsGraph} (hinv : GraphInv caps g.nodes)
    (hgr : g.graphed = true) (hall : ∀ st ∈ g.nodes, st.goal_flag = false) :
    print_solutions g = Report.no_solution := by
  have hlen : 0 < g.nodes.length := by
    obtain ⟨st, rest, hr, _, _⟩ := hinv.root
    rw [hr]
    simp
  have hperm := traverse_root_perm hinv hlen
  have hl0 : ((traverse_states g.nodes g.nodes.length 0).map
      (mk_solution g.nodes)).length = 0 := by
    rw [List.length_map, hperm.length_eq, ← List.countP_eq_length_filter, countP_range_flag]
    exact List.countP_eq_zero.mpr (fun st hst => by
      rw [hall st hst]
      exact Bool.false_ne_true)
  simp only [print_solutions, hgr, if_true]
  rw [if_pos hl0]

/-- CLAIM C9: degenerate runs terminate normally and report no solution:
with zero jugs the engine builds only the root and reports no solution for
any target; with a positive target exceeding every (positive) capacity no
state can ever hold the target, so expansion runs to exhaustion, every
amount stays in `[0, capacity]`, and extraction reports no solution. -/
theorem C9_degenerate_runs :
    (∀ (goal : Int) (fuel : Nat), 0 < fuel →
      ∃ g, graph_it (JugsGraph.mk_graph [] goal) fuel = some g ∧
        print_solutions g = Report.no_solution) ∧
    (∀ (caps : List Int) (goal : Int), (∀ c ∈ caps, 0 < c) → 0 < goal →
      (∀ c ∈ caps, c < goal) →
      ∃ (fuel : Nat) (g : JugsGraph),
        graph_it (JugsGraph.mk_graph caps goal) fuel = some g ∧
        print_solutions g = Report.no_solution ∧
        ∀ st ∈ g.nodes, ∀ j ∈ st.jugs, 0 ≤ j.amount ∧ j.amount ≤ j.capacity) := by
  constructor
  · intro goal fuel hf
    cases fuel with
    | zero => omega
    | succ n => exact ⟨_, rfl, rfl⟩
  · intro caps goal hc h0 hlt
    have hc0 : ∀ c ∈ caps, 0 ≤ c := fun c hm => le_of_lt (hc c hm)
    have hgoal : ∀ js, jugs_wf caps js → has_fill_amount js goal = false := by
      intro js hwf
      rw [has_fill_amount, List.any_eq_false]
      intro j hj
      obtain ⟨hge, hle⟩ := hwf.2 j hj
      have hcj : j.capacity ∈ caps := by
        rw [← hwf.1]
        exact List.mem_map_of_mem Jug.capacity hj
      have := hlt j.capacity hcj
      simp only [beq_iff_eq]
      omega
    have hinv := mk_graph_inv caps goal hc0
    have hrootflag : ∀ cst, (JugsGraph.mk_graph caps goal).nodes[0]? = some cst →
        cst.goal_flag = false := by
      intro cst h2
      rw [show (JugsGraph.mk_graph caps goal).nodes[0]? =
        some ⟨caps.map (fun c => ⟨c, 0⟩), false, none⟩ from rfl] at h2
      cases h2
      rfl
    have hs := graph_helper_succeeds (JugsGraph.mk_graph caps goal).goal hc0
      (state_bound caps) (JugsGraph.mk_graph caps goal).nodes 0 hinv
      (by show 0 < 1; omega) hrootflag (by omega)
    obtain ⟨ns, hns⟩ := Option.isSome_iff_exists.mp hs
    have hinv2 : GraphInv caps ns := graph_helper_inv (JugsGraph.mk_graph caps goal).goal
      hc0 (state_bound caps) _ 0 ns hinv hrootflag hns
    have hrootnf : ∀ st ∈ (JugsGraph.mk_graph caps goal).nodes, st.goal_flag = false := by
      intro st hst
      rw [show (JugsGraph.mk_graph caps goal).nodes =
        [⟨caps.map (fun c => ⟨c, 0⟩), false, none⟩] from rfl, List.mem_singleton] at hst
      subst hst
      rfl
    have hnf : ∀ st ∈ ns, st.goal_flag = false :=
      graph_helper_noflag hc0 hgoal (state_bound caps) _ 0 ns hinv hrootnf hrootflag hns
    refine ⟨state_bound caps, { nodes := ns, goal := goal, graphed := true }, ?_, ?_, ?_⟩
    · unfold graph_it
      rw [hns]
      rfl
    · exact print_no_solution (g := { nodes := ns, goal := goal, graphed := true })
        hinv2 rfl hnf
    · intro st hst j hj
      exact (hinv2.wf st hst).2 j hj

/-- Witness for C9: the zero-jug clause at target 3 with fuel 5, and the
too-large-target clause for a single jug of capacity 3 and target 5. -/
theorem C9_witness :
    (∃ g, graph_it (JugsGraph.mk_graph [] 3) 5 = some g ∧
      print_solutions g = Report.no_solution) ∧
    (∃ (fuel : Nat) (g : JugsGraph),
      graph_it (JugsGraph.mk_graph [3] 5) fuel = some g ∧
      print_solutions g = Report.no_solution ∧
      ∀ st ∈ g.nodes, ∀ j ∈ st.jugs, 0 ≤ j.amount ∧ j.amount ≤ j.capacity) :=
  ⟨C9_degenerate_runs.1 3 5 (by decide),
   C9_degenerate_runs.2 [3] 5 (by decide) (by decide) (by decide)⟩
